import Mathlib

/-
Verification of the duplicate-file handling program (HandleDuplicateFiles.cpp).

The program is embedded shallowly:
* A file system is a map from paths to optional byte contents
  (`none` models a file whose stream fails to open).
* `CompareFilesBufferedAdvanced` embeds the chunked multi-reader comparator:
  it streams the master file in `BUFFER_SIZE` chunks against all right files,
  pruning right files on short reads and on first-divergence, and collecting
  survivors that end exactly at end-of-file.  Console error output is modelled
  as a list of `LogEvent`s (the C++ code logs exactly at the two open-failure
  sites).
* `GroupFilesByContentUsingMap` embeds the recursive pivot partitioner.  The
  C++ recursion is well-founded because every `keyGroups` bucket is strictly
  smaller than the parent candidate set; the embedding uses a fuel argument
  initialised to `files.length` (proved adequate in `groupFilesAux_fuel_eq`),
  which keeps every definition computable by the kernel.
* `DeduplicateGroup` embeds the hard-link deduplicator over an abstract
  filesystem state (`DedupState`): `getId` models `GetFileUniqueIdAndLinkCount`
  (`none` = metadata query failure or missing path), and the `deleteOk` /
  `linkOk` oracles model success of `DeleteFileW` / `CreateHardLinkW`.
  The attempted system calls are recorded in an `Action` trace.

One deliberate abstraction: the C++ `keyGroups` is a `std::map` iterated in
key-sorted order (with `char`, i.e. signed, comparison on the byte value); the
embedding keeps buckets in first-insertion order.  This changes only the order
in which duplicate groups are emitted, which no claim refers to; the bucket
contents and the recursion performed on each bucket are identical.
-/

set_option linter.unusedVariables false

namespace HandleDuplicateFiles

/-- A file system: maps a path to the byte contents of the file, or `none`
if opening the file's stream fails.  Bytes are `Nat` values (0..255 in real
executions; nothing below depends on the bound). -/
abbrev FS : Type := String → Option (List Nat)

/-- `constexpr size_t BUFFER_SIZE = 4096;` -/
def BUFFER_SIZE : Nat := 4096

/-- `constexpr size_t MAX_BATCH = 256;` (in `GroupFilesByContentUsingMap`). -/
def MAX_BATCH : Nat := 256

/-- `struct RightFileState`: the per-right-file state.  The open stream,
positioned after `seekg`, is modelled by the list of not-yet-consumed bytes. -/
structure RightFileState where
  filePath : String
  rem : List Nat
deriving DecidableEq

/-- `typedef std::pair<std::streamsize, char> GroupKey;` — (byte offset of the
first divergence, the right file's byte value there). -/
abbrev GroupKey := Nat × Nat

/-- The `keyGroups` map, as an association list in first-insertion order. -/
abbrev KeyGroups := List (GroupKey × List String)

/-- `keyGroups[key].push_back(path)`: append to the bucket of `key`, creating
the bucket if absent. -/
def insertKeyGroup : KeyGroups → GroupKey → String → KeyGroups
  | [], key, p => [(key, [p])]
  | e :: rest, key, p =>
    if e.1 = key then (e.1, e.2 ++ [p]) :: rest else e :: insertKeyGroup rest key p

/-- The first-mismatch scan
`for (; mismatchIndex < masterBytes; ++mismatchIndex) ...`: index of the first
position where the two buffers differ (length of the common prefix). -/
def firstDiff : List Nat → List Nat → Nat
  | a :: as, b :: bs => if a = b then firstDiff as bs + 1 else 0
  | _, _ => 0

/-- One round of the inner `for (auto it = rightStates.begin(); ...)` loop:
for the current master chunk, each right file reads `chunk.length` bytes.
A short read erases the state (no key, no log — the C++ code only erases);
a content mismatch inserts the path into the bucket keyed by
`(off + mismatchIndex, rightBuffer[mismatchIndex])` and erases the state;
a match advances the stream and keeps the state. -/
def processChunk (chunk : List Nat) (off : Nat) :
    List RightFileState → KeyGroups → List RightFileState × KeyGroups
  | [], kgs => ([], kgs)
  | s :: rest, kgs =>
    let rb := s.rem.take chunk.length
    if rb.length ≠ chunk.length then
      processChunk chunk off rest kgs
    else if rb ≠ chunk then
      processChunk chunk off rest
        (insertKeyGroup kgs (off + firstDiff chunk rb, rb.getD (firstDiff chunk rb) 0)
          s.filePath)
    else
      let r := processChunk chunk off rest kgs
      ({ filePath := s.filePath, rem := s.rem.drop chunk.length } :: r.1, r.2)

/-- The outer `while (true)` master-read loop.  `mrem` is what remains of the
master file, `off` the running `totalBytesRead`.  The fuel argument makes the
recursion structural; `mrem.length` fuel is always sufficient because every
iteration consumes at least one master byte. -/
def compareLoopAux : Nat → List Nat → Nat → List RightFileState → KeyGroups →
    List RightFileState × KeyGroups
  | 0, _, _, states, kgs => (states, kgs)
  | fuel + 1, mrem, off, states, kgs =>
    let chunk := mrem.take BUFFER_SIZE
    if chunk = [] then (states, kgs)
    else
      let r := processChunk chunk off states kgs
      if r.1 = [] then r
      else compareLoopAux fuel (mrem.drop BUFFER_SIZE) (off + chunk.length) r.1 r.2

/-- Events written to `std::wcerr` by the comparator.  The C++ function logs in
exactly two places: master open failure and right-file open failure. -/
inductive LogEvent where
  | openMasterFail : String → LogEvent
  | openRightFail : String → LogEvent
deriving DecidableEq

/-- The `rightStates` vector built by the open loop of
`CompareFilesBufferedAdvanced`: one state per right file whose stream opened,
in order, each seeked to `totalBytesRead`. -/
def sessionStates (fs : FS) (rightFiles : List String) (totalBytesRead : Nat) :
    List RightFileState :=
  rightFiles.filterMap fun p =>
    match fs p with
    | none => none
    | some ct => some { filePath := p, rem := ct.drop totalBytesRead }

/-- The open-failure messages written by the open loop of
`CompareFilesBufferedAdvanced`. -/
def sessionLogs (fs : FS) (rightFiles : List String) : List LogEvent :=
  rightFiles.filterMap fun p =>
    match fs p with
    | none => some (LogEvent.openRightFail p)
    | some _ => none

/-- Shallow embedding of `CompareFilesBufferedAdvanced`: compares the master
file against `rightFiles` starting at offset `totalBytesRead`, extending the
accumulators `keyGroups` and `duplicateGroup` (the C++ by-reference out
parameters).  Returns the extended key groups, the extended duplicate group,
and the log events emitted during this call. -/
def CompareFilesBufferedAdvanced (fs : FS) (masterFilePath : String)
    (rightFiles : List String) (totalBytesRead : Nat)
    (keyGroups : KeyGroups) (duplicateGroup : List String) :
    KeyGroups × List String × List LogEvent :=
  match fs masterFilePath with
  | none => (keyGroups, duplicateGroup, [LogEvent.openMasterFail masterFilePath])
  | some mc =>
    let states := sessionStates fs rightFiles totalBytesRead
    let mrem := mc.drop totalBytesRead
    let r := compareLoopAux mrem.length mrem totalBytesRead states keyGroups
    (r.2,
      duplicateGroup ++ (r.1.filter fun s => s.rem.isEmpty).map fun s => s.filePath,
      sessionLogs fs rightFiles)

/-- The `while (processed < totalRightFiles)` batching loop of
`GroupFilesByContentUsingMap`: the right files are fed to the comparator in
batches of at most `MAX_BATCH`, threading the `keyGroups` and `duplicateGroup`
accumulators through.  Fuel `rights.length` is always sufficient. -/
def compareBatchesAux (fs : FS) (pivot : String) :
    Nat → List String → Nat → KeyGroups → List String → List LogEvent →
    KeyGroups × List String × List LogEvent
  | 0, _, _, kgs, dup, logs => (kgs, dup, logs)
  | fuel + 1, rights, off, kgs, dup, logs =>
    if rights = [] then (kgs, dup, logs)
    else
      let r := CompareFilesBufferedAdvanced fs pivot (rights.take MAX_BATCH) off kgs dup
      compareBatchesAux fs pivot fuel (rights.drop MAX_BATCH) off r.1 r.2.1 (logs ++ r.2.2)

/-- Batched comparison of `rights` against `pivot` (see `compareBatchesAux`). -/
def compareBatches (fs : FS) (pivot : String) (rights : List String) (off : Nat)
    (kgs : KeyGroups) (dup : List String) (logs : List LogEvent) :
    KeyGroups × List String × List LogEvent :=
  compareBatchesAux fs pivot rights.length rights off kgs dup logs

/-- The comparison session one call of `GroupFilesByContentUsingMap` performs:
pivot `files[0]`, right files `files[1..]`, starting accumulators
`keyGroups = {}` and `duplicateGroup = [pivot]`. -/
def pivotSession (fs : FS) (files : List String) (off : Nat) :
    KeyGroups × List String × List LogEvent :=
  compareBatches fs (files.headD "") files.tail off [] [files.headD ""] []

/-- Fuelled embedding of the recursive body of `GroupFilesByContentUsingMap`:
if `files.size() < 2` return; otherwise run the pivot session, emit the
duplicate group when it has more than one member, and recurse on every bucket
with more than one member at that bucket's divergence offset. -/
def groupFilesAux (fs : FS) : Nat → List String → Nat → List (List String)
  | 0, _, _ => []
  | fuel + 1, files, off =>
    if files.length < 2 then []
    else
      let r := pivotSession fs files off
      (if 1 < r.2.1.length then [r.2.1] else []) ++
        (r.1.map fun e =>
          if 1 < e.2.length then groupFilesAux fs fuel e.2 e.1.1 else []).flatten

/-- Shallow embedding of `GroupFilesByContentUsingMap(files, duplicateGroups,
totalBytesRead)`: returns the list of duplicate groups appended to
`duplicateGroups` by the call.  Fuel `files.length` is sufficient because each
bucket is strictly smaller than its parent candidate set
(`groupFilesAux_fuel_eq` below). -/
def GroupFilesByContentUsingMap (fs : FS) (files : List String) (off : Nat) :
    List (List String) :=
  groupFilesAux fs files.length files off

/-- All paths stored in the buckets of a `KeyGroups` map. -/
def outPaths (kgs : KeyGroups) : List String := (kgs.map fun e => e.2).flatten

/-- The bucket stored under key `k` (empty when the key is absent). -/
def bucketOf : KeyGroups → GroupKey → List String
  | [], _ => []
  | e :: rest, k => if e.1 = k then e.2 else bucketOf rest k

/-- Path `q` is in the bucket keyed `k`. -/
def kgsMem (kgs : KeyGroups) (k : GroupKey) (q : String) : Prop :=
  q ∈ bucketOf kgs k

instance (kgs : KeyGroups) (k : GroupKey) (q : String) : Decidable (kgsMem kgs k q) := by
  unfold kgsMem; infer_instance

/-- Total number of paths stored across all buckets. -/
def kgsSize (kgs : KeyGroups) : Nat := (kgs.map fun e => e.2.length).sum

/-- The state the hard-link deduplicator acts on: per-path link identity
(`GetFileUniqueIdAndLinkCount`; `none` = the query fails or the path is
missing) plus success oracles for `DeleteFileW` and `CreateHardLinkW`. -/
structure DedupState where
  getId : String → Option Nat
  deleteOk : String → Bool
  linkOk : String → Bool

/-- System calls attempted by `DeduplicateGroup`, in order. -/
inductive Action where
  | queryId : String → Action
  | deleteFile : String → Action
  | createLink : String → String → Action
deriving DecidableEq

/-- Point update of a link-identity map. -/
def setId (f : String → Option Nat) (p : String) (v : Option Nat) :
    String → Option Nat :=
  fun q => if q = p then v else f q

/-- The `for (size_t i = 1; ...)` member loop of `DeduplicateGroup`: per
member, query its identity (failure: log and skip), skip when it already
equals the master's, otherwise delete the member's file and re-create its
path as a hard link to the master.  A successful delete removes the path's
identity; a successful link gives it the master's current identity; both
calls are recorded in the trace whether or not they succeed. -/
def dedupMembers (master : String) (masterId : Nat) :
    List String → DedupState → DedupState × List Action
  | [], st => (st, [])
  | d :: rest, st =>
    match st.getId d with
    | none =>
      let r := dedupMembers master masterId rest st
      (r.1, Action.queryId d :: r.2)
    | some dupId =>
      if dupId = masterId then
        let r := dedupMembers master masterId rest st
        (r.1, Action.queryId d :: r.2)
      else if st.deleteOk d then
        let st1 : DedupState := { st with getId := setId st.getId d none }
        let st2 : DedupState :=
          if st1.linkOk d then { st1 with getId := setId st1.getId d (st1.getId master) }
          else st1
        let r := dedupMembers master masterId rest st2
        (r.1, Action.queryId d :: Action.deleteFile d :: Action.createLink d master :: r.2)
      else
        let r := dedupMembers master masterId rest st
        (r.1, Action.queryId d :: Action.deleteFile d :: r.2)

/-- Shallow embedding of `DeduplicateGroup`: returns the C++ return value
(`false` exactly when the master's identity query fails on a group of two or
more), the final state, and the trace of attempted system calls. -/
def DeduplicateGroup (st : DedupState) : List String → Bool × DedupState × List Action
  | m :: d :: rest =>
    match st.getId m with
    | none => (false, st, [Action.queryId m])
    | some masterId =>
      let r := dedupMembers m masterId (d :: rest) st
      (true, r.1, Action.queryId m :: r.2)
  | _ => (true, st, [])

/-- The deduplication phase of `wmain`: run `DeduplicateGroup` on each group
in order; on the first group reporting failure, return exit code 1 at once;
exit code 0 when all groups are processed. -/
def wmainDedupLoop (st : DedupState) : List (List String) → Nat × DedupState
  | [] => (0, st)
  | g :: rest =>
    let r := DeduplicateGroup st g
    if r.1 then wmainDedupLoop r.2.1 rest else (1, r.2.1)

/-! ### Basic facts about the key-group map -/

theorem outPaths_nil : outPaths [] = [] := rfl

theorem outPaths_cons (e : GroupKey × List String) (kgs : KeyGroups) :
    outPaths (e :: kgs) = e.2 ++ outPaths kgs := by
  simp [outPaths]

theorem kgsSize_nil : kgsSize [] = 0 := rfl

theorem kgsSize_cons (e : GroupKey × List String) (kgs : KeyGroups) :
    kgsSize (e :: kgs) = e.2.length + kgsSize kgs := by
  simp [kgsSize]

theorem kgsSize_insert (kgs : KeyGroups) (k : GroupKey) (p : String) :
    kgsSize (insertKeyGroup kgs k p) = kgsSize kgs + 1 := by
  induction kgs with
  | nil => simp [insertKeyGroup, kgsSize]
  | cons e rest ih =>
    by_cases h : e.1 = k
    · simp [insertKeyGroup, h, kgsSize_cons]; omega
    · simp [insertKeyGroup, h, kgsSize_cons, ih]; omega

theorem bucket_length_le_kgsSize {kgs : KeyGroups} {k : GroupKey} {b : List String}
    (h : (k, b) ∈ kgs) : b.length ≤ kgsSize kgs := by
  induction kgs with
  | nil => cases h
  | cons e rest ih =>
    rcases List.mem_cons.mp h with h | h
    · subst h
      rw [kgsSize_cons]
      show b.length ≤ b.length + kgsSize rest
      omega
    · have := ih h
      rw [kgsSize_cons]; omega

theorem bucketOf_insert (kgs : KeyGroups) (k : GroupKey) (p : String) (k' : GroupKey) :
    bucketOf (insertKeyGroup kgs k p) k' =
      if k' = k then bucketOf kgs k' ++ [p] else bucketOf kgs k' := by
  induction kgs with
  | nil =>
    by_cases h : k' = k
    · subst h; simp [insertKeyGroup, bucketOf]
    · simp [insertKeyGroup, bucketOf, h, Ne.symm h]
  | cons e rest ih =>
    obtain ⟨ek, eb⟩ := e
    by_cases he : ek = k
    · subst he
      by_cases h : k' = ek
      · subst h; simp [insertKeyGroup, bucketOf]
      · simp [insertKeyGroup, bucketOf, h, Ne.symm h]
    · by_cases h : ek = k'
      · subst h
        simp [insertKeyGroup, bucketOf, he, Ne.symm (a := ek) (b := k) he]
      · simp [insertKeyGroup, bucketOf, he, h, ih]

theorem kgsMem_insert {kgs : KeyGroups} {k : GroupKey} {p : String}
    {k' : GroupKey} {q : String} :
    kgsMem (insertKeyGroup kgs k p) k' q ↔ kgsMem kgs k' q ∨ (k' = k ∧ q = p) := by
  unfold kgsMem
  rw [bucketOf_insert]
  by_cases h : k' = k
  · simp [h]
  · simp [h]

theorem outPaths_insert_count (kgs : KeyGroups) (k : GroupKey) (p : String) (x : String) :
    (outPaths (insertKeyGroup kgs k p)).count x =
      (outPaths kgs).count x + (if p = x then 1 else 0) := by
  induction kgs with
  | nil =>
    simp [insertKeyGroup, outPaths, List.count_cons]
  | cons e rest ih =>
    by_cases h : e.1 = k
    · simp [insertKeyGroup, h, outPaths_cons, List.count_append, List.count_cons]
      omega
    · simp [insertKeyGroup, h, outPaths_cons, List.count_append, ih]
      omega

theorem kgsKeys_insert_of_mem {kgs : KeyGroups} {k : GroupKey} (p : String)
    (h : k ∈ kgs.map fun e => e.1) :
    (insertKeyGroup kgs k p).map (fun e => e.1) = kgs.map fun e => e.1 := by
  induction kgs with
  | nil => cases h
  | cons e rest ih =>
    by_cases he : e.1 = k
    · simp [insertKeyGroup, he]
    · have : k ∈ rest.map fun e => e.1 := by
        rcases List.mem_cons.mp h with h | h
        · exact absurd h.symm he
        · exact h
      simp [insertKeyGroup, he, ih this]

theorem kgsKeys_insert_of_not_mem {kgs : KeyGroups} {k : GroupKey} (p : String)
    (h : k ∉ kgs.map fun e => e.1) :
    (insertKeyGroup kgs k p).map (fun e => e.1) = (kgs.map fun e => e.1) ++ [k] := by
  induction kgs with
  | nil => simp [insertKeyGroup]
  | cons e rest ih =>
    by_cases he : e.1 = k
    · exact absurd (by simp [he]) h
    · have : k ∉ rest.map fun e => e.1 := fun hm => h (by simp [hm])
      simp [insertKeyGroup, he, ih this]

theorem kgsKeys_nodup_insert {kgs : KeyGroups} {k : GroupKey} (p : String)
    (h : (kgs.map fun e => e.1).Nodup) :
    ((insertKeyGroup kgs k p).map fun e => e.1).Nodup := by
  by_cases hk : k ∈ kgs.map fun e => e.1
  · rw [kgsKeys_insert_of_mem p hk]; exact h
  · rw [kgsKeys_insert_of_not_mem p hk]
    simp [List.nodup_append, h, hk]

theorem bucketOf_eq_of_mem {kgs : KeyGroups} {k : GroupKey} {b : List String}
    (hnd : (kgs.map fun e => e.1).Nodup) (h : (k, b) ∈ kgs) : bucketOf kgs k = b := by
  induction kgs with
  | nil => cases h
  | cons e rest ih =>
    rw [List.map_cons] at hnd
    have hnd1 := List.nodup_cons.mp hnd
    rcases List.mem_cons.mp h with h | h
    · subst h
      simp [bucketOf]
    · have hk : k ∈ rest.map fun e => e.1 := List.mem_map.mpr ⟨(k, b), h, rfl⟩
      have he : ¬ (e.1 = k) := fun hek => hnd1.1 (by rw [hek]; exact hk)
      show (if e.1 = k then e.2 else bucketOf rest k) = b
      rw [if_neg he]
      exact ih hnd1.2 h

/-! ### Facts about `firstDiff` -/

theorem firstDiff_lt {a b : List Nat} (hlen : a.length = b.length) (hne : a ≠ b) :
    firstDiff a b < a.length := by
  induction a generalizing b with
  | nil =>
    cases b with
    | nil => exact absurd rfl hne
    | cons y bs => simp at hlen
  | cons x as ih =>
    cases b with
    | nil => simp at hlen
    | cons y bs =>
      by_cases hxy : x = y
      · have hne' : as ≠ bs := fun h => hne (by rw [hxy, h])
        have := ih (by simpa using hlen) hne'
        simp [firstDiff, hxy]
        omega
      · simp [firstDiff, hxy]

theorem firstDiff_take (a b : List Nat) :
    a.take (firstDiff a b) = b.take (firstDiff a b) := by
  induction a generalizing b with
  | nil =>
    cases b with
    | nil => rfl
    | cons y bs => simp [firstDiff]
  | cons x as ih =>
    cases b with
    | nil => simp [firstDiff]
    | cons y bs =>
      by_cases hxy : x = y
      · simp [firstDiff, hxy, ih bs]
      · simp [firstDiff, hxy]

theorem firstDiff_ne {a b : List Nat} (h : firstDiff a b < a.length) :
    a[firstDiff a b]? ≠ b[firstDiff a b]? := by
  induction a generalizing b with
  | nil => simp at h
  | cons x as ih =>
    cases b with
    | nil =>
      simp [firstDiff]
    | cons y bs =>
      by_cases hxy : x = y
      · have h' : firstDiff as bs < as.length := by
          simp [firstDiff, hxy] at h; omega
        simpa [firstDiff, hxy] using ih h'
      · simp [firstDiff, hxy]

/-! ### Small list helpers -/

theorem getD_of_getElem? {l : List Nat} {i v : Nat} (h : l[i]? = some v) :
    l.getD i 0 = v := by
  rw [List.getD_eq_getElem?_getD, h]; rfl

theorem drop_add (l : List Nat) (a b : Nat) : (l.drop a).drop b = l.drop (a + b) :=
  List.drop_drop b a l

theorem take_of_take_big {l : List Nat} {n B : Nat} (h : n ≤ B) :
    (l.take B).take n = l.take n := by
  rw [List.take_take, Nat.min_eq_left h]

/-! ### The comparison-session invariant -/

/-- Invariant of one right-file state during a comparison session that started
at offset `off0` against master content `cm`, after `δ` master bytes have been
consumed: the file opened with content `ct`, its stream position is
`off0 + δ`, and its bytes in `[off0, off0 + δ)` agree with the master's. -/
def StInv (fs : FS) (cm : List Nat) (off0 δ : Nat) (s : RightFileState) : Prop :=
  ∃ ct, fs s.filePath = some ct ∧ s.rem = ct.drop (off0 + δ) ∧
    (ct.drop off0).take δ = (cm.drop off0).take δ

/-- What holds of a path inserted under key `k` into the key-group map during
a session started at offset `off0` against master content `cm`: the file
opened with content `ct`, its bytes in `[off0, k.1)` agree with the master's,
its byte at offset `k.1` is the key's byte value, and the master's byte there
(or end of file) differs from it.  The final component records that the
insertion happened during a *full* read of some master chunk — the chunk
spans `[r*B, r*B + L)` relative to the resume offset, `L` is the master
chunk's size (`BUFFER_SIZE`, or what remains of the master for its final
chunk), the divergence lies inside it, and the candidate supplied the whole
chunk (the C++ length check at lines 94–97 erases a candidate *before* any
content comparison when its read comes up short, so a short-reading
candidate is never bucketed). -/
def KeyFact (fs : FS) (cm : List Nat) (off0 : Nat) (k : GroupKey) (q : String) : Prop :=
  ∃ ct, fs q = some ct ∧ off0 ≤ k.1 ∧
    (ct.drop off0).take (k.1 - off0) = (cm.drop off0).take (k.1 - off0) ∧
    ct[k.1]? = some k.2 ∧ cm[k.1]? ≠ some k.2 ∧
    ∃ r L, r * BUFFER_SIZE ≤ k.1 - off0 ∧ k.1 - off0 < r * BUFFER_SIZE + L ∧
      r * BUFFER_SIZE + L ≤ (ct.drop off0).length ∧
      (L = BUFFER_SIZE ∨ r * BUFFER_SIZE + L = (cm.drop off0).length)

theorem step_match {fs : FS} {cm ct chunk : List Nat} {off0 δ : Nat} {s : RightFileState}
    (hc : fs s.filePath = some ct)
    (hrem : s.rem = ct.drop (off0 + δ))
    (hrel : (ct.drop off0).take δ = (cm.drop off0).take δ)
    (hchunk : chunk = (cm.drop (off0 + δ)).take BUFFER_SIZE)
    (heq : s.rem.take chunk.length = chunk) :
    StInv fs cm off0 (δ + chunk.length)
      { filePath := s.filePath, rem := s.rem.drop chunk.length } := by
  have hchunk_cm : (cm.drop (off0 + δ)).take chunk.length = chunk := by
    have hL : chunk.length ≤ BUFFER_SIZE := by
      rw [hchunk]; exact List.length_take_le ..
    calc (cm.drop (off0 + δ)).take chunk.length
        = ((cm.drop (off0 + δ)).take BUFFER_SIZE).take chunk.length :=
          (take_of_take_big hL).symm
      _ = chunk.take chunk.length := by rw [← hchunk]
      _ = chunk := List.take_length chunk
  refine ⟨ct, hc, ?_, ?_⟩
  · show s.rem.drop chunk.length = ct.drop (off0 + (δ + chunk.length))
    rw [hrem, drop_add, Nat.add_assoc]
  · rw [List.take_add, List.take_add, drop_add, drop_add, hrel]
    congr 1
    calc (ct.drop (off0 + δ)).take chunk.length
        = s.rem.take chunk.length := by rw [hrem]
      _ = chunk := heq
      _ = (cm.drop (off0 + δ)).take chunk.length := hchunk_cm.symm

theorem step_mismatch {fs : FS} {cm ct chunk : List Nat} {off0 δ : Nat} {s : RightFileState}
    (hc : fs s.filePath = some ct)
    (hrem : s.rem = ct.drop (off0 + δ))
    (hrel : (ct.drop off0).take δ = (cm.drop off0).take δ)
    (hchunk : chunk = (cm.drop (off0 + δ)).take BUFFER_SIZE)
    (hδ : δ % BUFFER_SIZE = 0)
    (hlen : (s.rem.take chunk.length).length = chunk.length)
    (hne : s.rem.take chunk.length ≠ chunk) :
    KeyFact fs cm off0
      (off0 + δ + firstDiff chunk (s.rem.take chunk.length),
        (s.rem.take chunk.length).getD (firstDiff chunk (s.rem.take chunk.length)) 0)
      s.filePath := by
  set rb := s.rem.take chunk.length with hrb
  set i := firstDiff chunk rb with hi_def
  have hi : i < chunk.length :=
    firstDiff_lt hlen.symm (fun h => hne h.symm)
  have hirb : i < rb.length := by omega
  have hiB : i < BUFFER_SIZE := by
    have : chunk.length ≤ BUFFER_SIZE := by rw [hchunk]; exact List.length_take_le ..
    omega
  have hv : rb[i]? = some (rb.getD i 0) := by
    simp [List.getD_eq_getElem?_getD, List.getElem?_eq_getElem hirb]
  have hcside : ct[off0 + δ + i]? = rb[i]? := by
    calc ct[off0 + δ + i]? = (ct.drop (off0 + δ))[i]? := (List.getElem?_drop ..).symm
      _ = s.rem[i]? := by rw [hrem]
      _ = rb[i]? := (List.getElem?_take_of_lt hi).symm
  have hmside : cm[off0 + δ + i]? = chunk[i]? := by
    calc cm[off0 + δ + i]? = (cm.drop (off0 + δ))[i]? := (List.getElem?_drop ..).symm
      _ = ((cm.drop (off0 + δ)).take BUFFER_SIZE)[i]? :=
          (List.getElem?_take_of_lt hiB).symm
      _ = chunk[i]? := by rw [← hchunk]
  have hbyte : chunk[i]? ≠ rb[i]? := firstDiff_ne hi
  have harith : off0 + δ + i - off0 = δ + i := by omega
  have hdiv : δ / BUFFER_SIZE * BUFFER_SIZE = δ :=
    Nat.div_mul_cancel (Nat.dvd_of_mod_eq_zero hδ)
  have hsremlen : s.rem.length = ct.length - (off0 + δ) := by
    rw [hrem, List.length_drop]
  have hsup : chunk.length ≤ s.rem.length := by
    conv_lhs => rw [← hlen]
    rw [hrb, List.length_take]
    exact Nat.min_le_right ..
  refine ⟨ct, hc, by omega, ?_, ?_, ?_, δ / BUFFER_SIZE, chunk.length, ?_, ?_, ?_, ?_⟩
  · rw [harith, List.take_add, List.take_add, drop_add, drop_add, hrel]
    congr 1
    calc (ct.drop (off0 + δ)).take i
        = s.rem.take i := by rw [hrem]
      _ = (s.rem.take chunk.length).take i := (take_of_take_big hi.le).symm
      _ = chunk.take i := (firstDiff_take chunk rb).symm
      _ = ((cm.drop (off0 + δ)).take BUFFER_SIZE).take i := by rw [hchunk]
      _ = (cm.drop (off0 + δ)).take i := take_of_take_big hiB.le
  · rw [hcside, hv]
  · rw [hmside, ← hv]
    exact hbyte
  · rw [harith, hdiv]
    omega
  · rw [harith, hdiv]
    omega
  · rw [hdiv, List.length_drop]
    omega
  · have hLmin : chunk.length = min BUFFER_SIZE (cm.length - (off0 + δ)) := by
      rw [hchunk, List.length_take, List.length_drop]
    rcases Nat.le_total BUFFER_SIZE (cm.length - (off0 + δ)) with hc1 | hc1
    · left
      rw [hLmin, Nat.min_eq_left hc1]
    · right
      have hchlen : chunk.length = cm.length - (off0 + δ) := by
        rw [hLmin, Nat.min_eq_right hc1]
      rw [hdiv, List.length_drop]
      omega

/-! ### Unfolding equations for `processChunk` -/

theorem processChunk_nil (chunk : List Nat) (off : Nat) (kgs : KeyGroups) :
    processChunk chunk off [] kgs = ([], kgs) := rfl

theorem processChunk_cons_short (chunk : List Nat) (off : Nat) (s : RightFileState)
    (rest : List RightFileState) (kgs : KeyGroups)
    (h : (s.rem.take chunk.length).length ≠ chunk.length) :
    processChunk chunk off (s :: rest) kgs = processChunk chunk off rest kgs := by
  simp only [processChunk]
  rw [if_pos h]

theorem processChunk_cons_mismatch (chunk : List Nat) (off : Nat) (s : RightFileState)
    (rest : List RightFileState) (kgs : KeyGroups)
    (h1 : (s.rem.take chunk.length).length = chunk.length)
    (h2 : s.rem.take chunk.length ≠ chunk) :
    processChunk chunk off (s :: rest) kgs =
      processChunk chunk off rest
        (insertKeyGroup kgs
          (off + firstDiff chunk (s.rem.take chunk.length),
            (s.rem.take chunk.length).getD (firstDiff chunk (s.rem.take chunk.length)) 0)
          s.filePath) := by
  simp only [processChunk]
  rw [if_neg (by exact fun h => h h1), if_pos h2]

theorem processChunk_cons_match (chunk : List Nat) (off : Nat) (s : RightFileState)
    (rest : List RightFileState) (kgs : KeyGroups)
    (h2 : s.rem.take chunk.length = chunk) :
    processChunk chunk off (s :: rest) kgs =
      ({ filePath := s.filePath, rem := s.rem.drop chunk.length } ::
          (processChunk chunk off rest kgs).1,
        (processChunk chunk off rest kgs).2) := by
  have h1 : (s.rem.take chunk.length).length = chunk.length := by rw [h2]
  simp only [processChunk]
  rw [if_neg (by exact fun h => h h1), if_neg (by exact fun h => h h2)]

/-! ### Aggregate facts about `processChunk` -/

theorem processChunk_count (chunk : List Nat) (off : Nat)
    (states : List RightFileState) (kgs : KeyGroups) :
    kgsSize (processChunk chunk off states kgs).2 +
      (processChunk chunk off states kgs).1.length ≤ kgsSize kgs + states.length := by
  induction states generalizing kgs with
  | nil => simp [processChunk_nil]
  | cons s rest ih =>
    by_cases h1 : (s.rem.take chunk.length).length = chunk.length
    · by_cases h2 : s.rem.take chunk.length = chunk
      · rw [processChunk_cons_match chunk off s rest kgs h2]
        have := ih kgs
        dsimp only
        rw [List.length_cons, List.length_cons]
        omega
      · rw [processChunk_cons_mismatch chunk off s rest kgs h1 h2]
        have := ih (insertKeyGroup kgs
          (off + firstDiff chunk (s.rem.take chunk.length),
            (s.rem.take chunk.length).getD (firstDiff chunk (s.rem.take chunk.length)) 0)
          s.filePath)
        rw [kgsSize_insert] at this
        rw [List.length_cons]
        omega
    · rw [processChunk_cons_short chunk off s rest kgs h1]
      have := ih kgs
      rw [List.length_cons]
      omega

theorem processChunk_count_paths (chunk : List Nat) (off : Nat)
    (states : List RightFileState) (kgs : KeyGroups) (x : String) :
    (outPaths (processChunk chunk off states kgs).2).count x +
      ((processChunk chunk off states kgs).1.map fun s => s.filePath).count x ≤
    (outPaths kgs).count x + (states.map fun s => s.filePath).count x := by
  induction states generalizing kgs with
  | nil => simp [processChunk_nil]
  | cons s rest ih =>
    by_cases h1 : (s.rem.take chunk.length).length = chunk.length
    · by_cases h2 : s.rem.take chunk.length = chunk
      · rw [processChunk_cons_match chunk off s rest kgs h2]
        have := ih kgs
        dsimp only
        rw [List.map_cons, List.count_cons, List.map_cons, List.count_cons]
        by_cases hx : s.filePath = x <;> simp [hx] <;> omega
      · rw [processChunk_cons_mismatch chunk off s rest kgs h1 h2]
        have := ih (insertKeyGroup kgs
          (off + firstDiff chunk (s.rem.take chunk.length),
            (s.rem.take chunk.length).getD (firstDiff chunk (s.rem.take chunk.length)) 0)
          s.filePath)
        rw [outPaths_insert_count] at this
        rw [List.map_cons, List.count_cons]
        by_cases hx : s.filePath = x <;> simp [hx] at this ⊢ <;> omega
    · rw [processChunk_cons_short chunk off s rest kgs h1]
      have := ih kgs
      rw [List.map_cons, List.count_cons]
      by_cases hx : s.filePath = x <;> simp [hx] <;> omega

theorem processChunk_keys_nodup (chunk : List Nat) (off : Nat)
    (states : List RightFileState) (kgs : KeyGroups)
    (h : (kgs.map fun e => e.1).Nodup) :
    (((processChunk chunk off states kgs).2.map fun e => e.1)).Nodup := by
  induction states generalizing kgs with
  | nil => simpa [processChunk_nil] using h
  | cons s rest ih =>
    by_cases h1 : (s.rem.take chunk.length).length = chunk.length
    · by_cases h2 : s.rem.take chunk.length = chunk
      · rw [processChunk_cons_match chunk off s rest kgs h2]
        exact ih kgs h
      · rw [processChunk_cons_mismatch chunk off s rest kgs h1 h2]
        exact ih _ (kgsKeys_nodup_insert _ h)
    · rw [processChunk_cons_short chunk off s rest kgs h1]
      exact ih kgs h

theorem processChunk_inv {fs : FS} {cm chunk : List Nat} {off0 δ : Nat}
    (hchunk : chunk = (cm.drop (off0 + δ)).take BUFFER_SIZE)
    (hδ : δ % BUFFER_SIZE = 0) :
    ∀ (states : List RightFileState) (kgs : KeyGroups),
      (∀ s ∈ states, StInv fs cm off0 δ s) →
      (∀ s' ∈ (processChunk chunk (off0 + δ) states kgs).1,
          StInv fs cm off0 (δ + chunk.length) s') ∧
      (∀ k q, kgsMem (processChunk chunk (off0 + δ) states kgs).2 k q →
          kgsMem kgs k q ∨ KeyFact fs cm off0 k q) := by
  intro states
  induction states with
  | nil =>
    intro kgs hst
    exact ⟨by simp [processChunk_nil], fun k q h => Or.inl h⟩
  | cons s rest ih =>
    intro kgs hst
    obtain ⟨ct, hct, hrem, hrel⟩ := hst s (List.mem_cons_self s rest)
    have hrest : ∀ s' ∈ rest, StInv fs cm off0 δ s' :=
      fun s' hs' => hst s' (List.mem_cons_of_mem s hs')
    by_cases h1 : (s.rem.take chunk.length).length = chunk.length
    · by_cases h2 : s.rem.take chunk.length = chunk
      · rw [processChunk_cons_match chunk (off0 + δ) s rest kgs h2]
        obtain ⟨ha, hb⟩ := ih kgs hrest
        refine ⟨?_, hb⟩
        intro s' hs'
        rcases List.mem_cons.mp hs' with h | h
        · subst h
          exact step_match hct hrem hrel hchunk h2
        · exact ha s' h
      · rw [processChunk_cons_mismatch chunk (off0 + δ) s rest kgs h1 h2]
        obtain ⟨ha, hb⟩ := ih _ hrest
        refine ⟨ha, ?_⟩
        intro k q hk
        rcases hb k q hk with h | h
        · rcases kgsMem_insert.mp h with h | ⟨hk1, hq⟩
          · exact Or.inl h
          · subst hk1
            subst hq
            exact Or.inr (step_mismatch hct hrem hrel hchunk hδ h1 h2)
        · exact Or.inr h
    · rw [processChunk_cons_short chunk (off0 + δ) s rest kgs h1]
      exact ih kgs hrest

/-! ### Aggregate facts about the master-read loop -/

theorem compareLoopAux_succ (fuel : Nat) (mrem : List Nat) (off : Nat)
    (states : List RightFileState) (kgs : KeyGroups) :
    compareLoopAux (fuel + 1) mrem off states kgs =
      if mrem.take BUFFER_SIZE = [] then (states, kgs)
      else if (processChunk (mrem.take BUFFER_SIZE) off states kgs).1 = []
        then processChunk (mrem.take BUFFER_SIZE) off states kgs
        else compareLoopAux fuel (mrem.drop BUFFER_SIZE)
          (off + (mrem.take BUFFER_SIZE).length)
          (processChunk (mrem.take BUFFER_SIZE) off states kgs).1
          (processChunk (mrem.take BUFFER_SIZE) off states kgs).2 := rfl

theorem compareLoopAux_count (fuel : Nat) :
    ∀ (mrem : List Nat) (off : Nat) (states : List RightFileState) (kgs : KeyGroups),
    kgsSize (compareLoopAux fuel mrem off states kgs).2 +
      (compareLoopAux fuel mrem off states kgs).1.length ≤
      kgsSize kgs + states.length := by
  induction fuel with
  | zero => intro mrem off states kgs; simp [compareLoopAux]
  | succ fuel ih =>
    intro mrem off states kgs
    rw [compareLoopAux_succ]
    by_cases hch : mrem.take BUFFER_SIZE = []
    · rw [if_pos hch]
    · rw [if_neg hch]
      have h1 := processChunk_count (mrem.take BUFFER_SIZE) off states kgs
      by_cases hst : (processChunk (mrem.take BUFFER_SIZE) off states kgs).1 = []
      · rw [if_pos hst]
        omega
      · rw [if_neg hst]
        have h2 := ih (mrem.drop BUFFER_SIZE) (off + (mrem.take BUFFER_SIZE).length)
          (processChunk (mrem.take BUFFER_SIZE) off states kgs).1
          (processChunk (mrem.take BUFFER_SIZE) off states kgs).2
        omega

theorem compareLoopAux_count_paths (fuel : Nat) :
    ∀ (mrem : List Nat) (off : Nat) (states : List RightFileState) (kgs : KeyGroups)
      (x : String),
    (outPaths (compareLoopAux fuel mrem off states kgs).2).count x +
      ((compareLoopAux fuel mrem off states kgs).1.map fun s => s.filePath).count x ≤
    (outPaths kgs).count x + (states.map fun s => s.filePath).count x := by
  induction fuel with
  | zero => intro mrem off states kgs x; simp [compareLoopAux]
  | succ fuel ih =>
    intro mrem off states kgs x
    rw [compareLoopAux_succ]
    by_cases hch : mrem.take BUFFER_SIZE = []
    · rw [if_pos hch]
    · rw [if_neg hch]
      have h1 := processChunk_count_paths (mrem.take BUFFER_SIZE) off states kgs x
      by_cases hst : (processChunk (mrem.take BUFFER_SIZE) off states kgs).1 = []
      · rw [if_pos hst]
        omega
      · rw [if_neg hst]
        have h2 := ih (mrem.drop BUFFER_SIZE) (off + (mrem.take BUFFER_SIZE).length)
          (processChunk (mrem.take BUFFER_SIZE) off states kgs).1
          (processChunk (mrem.take BUFFER_SIZE) off states kgs).2 x
        omega

theorem compareLoopAux_keys_nodup (fuel : Nat) :
    ∀ (mrem : List Nat) (off : Nat) (states : List RightFileState) (kgs : KeyGroups),
    ((kgs.map fun e => e.1)).Nodup →
    (((compareLoopAux fuel mrem off states kgs).2.map fun e => e.1)).Nodup := by
  induction fuel with
  | zero => intro mrem off states kgs h; simpa [compareLoopAux] using h
  | succ fuel ih =>
    intro mrem off states kgs h
    rw [compareLoopAux_succ]
    by_cases hch : mrem.take BUFFER_SIZE = []
    · rw [if_pos hch]; exact h
    · rw [if_neg hch]
      have h1 := processChunk_keys_nodup (mrem.take BUFFER_SIZE) off states kgs h
      by_cases hst : (processChunk (mrem.take BUFFER_SIZE) off states kgs).1 = []
      · rw [if_pos hst]; exact h1
      · rw [if_neg hst]
        exact ih _ _ _ _ h1

theorem drop_buffer_eq (cm : List Nat) (n : Nat) :
    (cm.drop n).drop BUFFER_SIZE = cm.drop (n + ((cm.drop n).take BUFFER_SIZE).length) := by
  rw [drop_add]
  rcases Nat.le_total (cm.length - n) BUFFER_SIZE with h | h
  · rw [List.drop_of_length_le (l := cm) (by omega), List.drop_of_length_le]
    rw [List.length_take, List.length_drop]
    omega
  · congr 1
    rw [List.length_take, List.length_drop]
    omega

theorem compareLoopAux_inv {fs : FS} {cm : List Nat} {off0 : Nat} (fuel : Nat) :
    ∀ (δ : Nat) (states : List RightFileState) (kgs : KeyGroups),
      cm.length - (off0 + δ) ≤ fuel →
      (δ % BUFFER_SIZE = 0 ∨ cm.drop (off0 + δ) = []) →
      (∀ s ∈ states, StInv fs cm off0 δ s) →
      (∀ s' ∈ (compareLoopAux fuel (cm.drop (off0 + δ)) (off0 + δ) states kgs).1,
          s'.rem = [] →
          ∃ ct, fs s'.filePath = some ct ∧ ct.drop off0 = cm.drop off0) ∧
      (∀ k q, kgsMem (compareLoopAux fuel (cm.drop (off0 + δ)) (off0 + δ) states kgs).2 k q →
          kgsMem kgs k q ∨ KeyFact fs cm off0 k q) := by
  induction fuel with
  | zero =>
    intro δ states kgs hfuel hδ hst
    rw [compareLoopAux]
    constructor
    · intro s' hs' hrem0
      obtain ⟨ct, hct, hrem, hrel⟩ := hst s' hs'
      refine ⟨ct, hct, ?_⟩
      have hctlen : ct.length ≤ off0 + δ := by
        have : (ct.drop (off0 + δ)).length = 0 := by rw [← hrem, hrem0]; rfl
        rw [List.length_drop] at this
        omega
      calc ct.drop off0 = (ct.drop off0).take δ :=
            (List.take_of_length_le (by rw [List.length_drop]; omega)).symm
        _ = (cm.drop off0).take δ := hrel
        _ = cm.drop off0 := List.take_of_length_le (by rw [List.length_drop]; omega)
    · exact fun k q h => Or.inl h
  | succ fuel ih =>
    intro δ states kgs hfuel hδ hst
    rw [compareLoopAux_succ]
    by_cases hch : (cm.drop (off0 + δ)).take BUFFER_SIZE = []
    · rw [if_pos hch]
      have hmlen : cm.length ≤ off0 + δ := by
        rcases List.take_eq_nil_iff.mp hch with h | h
        · exact absurd h (by simp [BUFFER_SIZE])
        · have := congrArg List.length h
          rw [List.length_drop] at this
          simp at this
          omega
      constructor
      · intro s' hs' hrem0
        obtain ⟨ct, hct, hrem, hrel⟩ := hst s' hs'
        refine ⟨ct, hct, ?_⟩
        have hctlen : ct.length ≤ off0 + δ := by
          have : (ct.drop (off0 + δ)).length = 0 := by rw [← hrem, hrem0]; rfl
          rw [List.length_drop] at this
          omega
        calc ct.drop off0 = (ct.drop off0).take δ :=
              (List.take_of_length_le (by rw [List.length_drop]; omega)).symm
          _ = (cm.drop off0).take δ := hrel
          _ = cm.drop off0 := List.take_of_length_le (by rw [List.length_drop]; omega)
      · exact fun k q h => Or.inl h
    · rw [if_neg hch]
      have hδ0 : δ % BUFFER_SIZE = 0 := by
        rcases hδ with h | h
        · exact h
        · rw [h] at hch
          exact absurd (by simp) hch
      obtain ⟨hstep1, hstep2⟩ :=
        @processChunk_inv fs cm ((cm.drop (off0 + δ)).take BUFFER_SIZE) off0 δ rfl hδ0
          states kgs hst
      by_cases hst0 : (processChunk ((cm.drop (off0 + δ)).take BUFFER_SIZE) (off0 + δ)
          states kgs).1 = []
      · rw [if_pos hst0]
        constructor
        · intro s' hs' _
          rw [hst0] at hs'
          cases hs'
        · exact hstep2
      · rw [if_neg hst0]
        have hlen1 : 1 ≤ ((cm.drop (off0 + δ)).take BUFFER_SIZE).length := by
          rcases Nat.eq_zero_or_pos ((cm.drop (off0 + δ)).take BUFFER_SIZE).length with h | h
          · exact absurd (List.eq_nil_of_length_eq_zero h) hch
          · omega
        set L := ((cm.drop (off0 + δ)).take BUFFER_SIZE).length with hL
        have hdrop : (cm.drop (off0 + δ)).drop BUFFER_SIZE = cm.drop (off0 + (δ + L)) := by
          rw [drop_buffer_eq cm (off0 + δ), Nat.add_assoc]
        have hoff : off0 + δ + L = off0 + (δ + L) := by omega
        have hinv' : (δ + L) % BUFFER_SIZE = 0 ∨ cm.drop (off0 + (δ + L)) = [] := by
          have hLeq : L = min BUFFER_SIZE (cm.length - (off0 + δ)) := by
            rw [hL, List.length_take, List.length_drop]
          rcases Nat.le_total BUFFER_SIZE (cm.length - (off0 + δ)) with hc1 | hc1
          · left
            have hLB : L = BUFFER_SIZE := by rw [hLeq, Nat.min_eq_left hc1]
            rw [hLB, Nat.add_mod_right]
            exact hδ0
          · right
            have hLB : L = cm.length - (off0 + δ) := by rw [hLeq, Nat.min_eq_right hc1]
            apply List.eq_nil_of_length_eq_zero
            rw [List.length_drop]
            omega
        have hih := ih (δ + L)
          (processChunk ((cm.drop (off0 + δ)).take BUFFER_SIZE) (off0 + δ) states kgs).1
          (processChunk ((cm.drop (off0 + δ)).take BUFFER_SIZE) (off0 + δ) states kgs).2
          (by omega) hinv' hstep1
        rw [hdrop, hoff]
        refine ⟨hih.1, ?_⟩
        intro k q h
        rcases hih.2 k q h with h | h
        · exact hstep2 k q h
        · exact Or.inr h

/-! ### Session-level facts about `CompareFilesBufferedAdvanced` -/

theorem sessionStates_spec {fs : FS} {rights : List String} {off : Nat}
    {s : RightFileState} (hs : s ∈ sessionStates fs rights off) :
    ∃ ct, fs s.filePath = some ct ∧ s.rem = ct.drop off ∧ s.filePath ∈ rights := by
  obtain ⟨p, hp, he⟩ := List.mem_filterMap.mp hs
  cases h : fs p with
  | none => rw [h] at he; simp at he
  | some ct =>
    rw [h] at he
    simp only [Option.some.injEq] at he
    subst he
    exact ⟨ct, h, rfl, hp⟩

theorem sessionStates_paths (fs : FS) (rights : List String) (off : Nat) :
    (sessionStates fs rights off).map (fun s => s.filePath) =
      rights.filter fun p => (fs p).isSome := by
  induction rights with
  | nil => rfl
  | cons p rest ih =>
    cases h : fs p with
    | none => simp [sessionStates, List.filterMap_cons, h, List.filter_cons] at ih ⊢; exact ih
    | some ct => simp [sessionStates, List.filterMap_cons, h, List.filter_cons] at ih ⊢; exact ih

theorem sessionLogs_mem {fs : FS} {rights : List String} {e : LogEvent} :
    e ∈ sessionLogs fs rights ↔ ∃ p ∈ rights, fs p = none ∧ e = LogEvent.openRightFail p := by
  constructor
  · intro h
    obtain ⟨p, hp, he⟩ := List.mem_filterMap.mp h
    cases h' : fs p with
    | none =>
      rw [h'] at he
      simp only [Option.some.injEq] at he
      exact ⟨p, hp, h', he.symm⟩
    | some ct => rw [h'] at he; simp at he
  · rintro ⟨p, hp, h', rfl⟩
    exact List.mem_filterMap.mpr ⟨p, hp, by rw [h']⟩

theorem CompareFiles_master_none {fs : FS} {m : String} {rights : List String}
    {off : Nat} {kgs0 : KeyGroups} {dup0 : List String} (h : fs m = none) :
    CompareFilesBufferedAdvanced fs m rights off kgs0 dup0 =
      (kgs0, dup0, [LogEvent.openMasterFail m]) := by
  unfold CompareFilesBufferedAdvanced
  rw [h]

theorem CompareFiles_master_some {fs : FS} {m : String} {mc : List Nat}
    (rights : List String) (off : Nat) (kgs0 : KeyGroups) (dup0 : List String)
    (h : fs m = some mc) :
    CompareFilesBufferedAdvanced fs m rights off kgs0 dup0 =
      ((compareLoopAux (mc.drop off).length (mc.drop off) off
          (sessionStates fs rights off) kgs0).2,
        dup0 ++ ((compareLoopAux (mc.drop off).length (mc.drop off) off
          (sessionStates fs rights off) kgs0).1.filter
            fun s => s.rem.isEmpty).map fun s => s.filePath,
        sessionLogs fs rights) := by
  unfold CompareFilesBufferedAdvanced
  rw [h]

theorem CompareFiles_fst_some {fs : FS} {m : String} {mc : List Nat}
    (rights : List String) (off : Nat) (kgs0 : KeyGroups) (dup0 : List String)
    (h : fs m = some mc) :
    (CompareFilesBufferedAdvanced fs m rights off kgs0 dup0).1 =
      (compareLoopAux (mc.drop off).length (mc.drop off) off
        (sessionStates fs rights off) kgs0).2 := by
  rw [CompareFiles_master_some rights off kgs0 dup0 h]

theorem CompareFiles_dup_some {fs : FS} {m : String} {mc : List Nat}
    (rights : List String) (off : Nat) (kgs0 : KeyGroups) (dup0 : List String)
    (h : fs m = some mc) :
    (CompareFilesBufferedAdvanced fs m rights off kgs0 dup0).2.1 =
      dup0 ++ ((compareLoopAux (mc.drop off).length (mc.drop off) off
        (sessionStates fs rights off) kgs0).1.filter
          fun s => s.rem.isEmpty).map fun s => s.filePath := by
  rw [CompareFiles_master_some rights off kgs0 dup0 h]

theorem CompareFiles_logs_some {fs : FS} {m : String} {mc : List Nat}
    (rights : List String) (off : Nat) (kgs0 : KeyGroups) (dup0 : List String)
    (h : fs m = some mc) :
    (CompareFilesBufferedAdvanced fs m rights off kgs0 dup0).2.2 =
      sessionLogs fs rights := by
  rw [CompareFiles_master_some rights off kgs0 dup0 h]

theorem session_inv {fs : FS} {m : String} {mc : List Nat} (hm : fs m = some mc)
    (rights : List String) (off : Nat) (kgs0 : KeyGroups) :
    (∀ s' ∈ (compareLoopAux (mc.drop off).length (mc.drop off) off
        (sessionStates fs rights off) kgs0).1,
        s'.rem = [] → ∃ ct, fs s'.filePath = some ct ∧ ct.drop off = mc.drop off) ∧
    (∀ k q, kgsMem (compareLoopAux (mc.drop off).length (mc.drop off) off
        (sessionStates fs rights off) kgs0).2 k q →
        kgsMem kgs0 k q ∨ KeyFact fs mc off k q) := by
  have h := @compareLoopAux_inv fs mc off ((mc.drop off).length) 0
    (sessionStates fs rights off) kgs0 (by rw [List.length_drop]; omega)
    (Or.inl (Nat.zero_mod BUFFER_SIZE)) ?_
  · simpa using h
  · intro s hs
    obtain ⟨ct, hct, hrem, _⟩ := sessionStates_spec hs
    exact ⟨ct, hct, by simpa using hrem, by simp⟩

/-- Facts about the duplicate group produced by one comparator call: every
path appended to `duplicateGroup` is a file whose content from the resume
offset onward coincides with the master's. -/
theorem CompareFiles_dup_spec {fs : FS} {m : String} {rights : List String}
    {off : Nat} {kgs0 : KeyGroups} {dup0 : List String} {p : String}
    (hp : p ∈ (CompareFilesBufferedAdvanced fs m rights off kgs0 dup0).2.1) :
    p ∈ dup0 ∨ ∃ cm ct, fs m = some cm ∧ fs p = some ct ∧ ct.drop off = cm.drop off := by
  cases hmo : fs m with
  | none =>
    rw [CompareFiles_master_none hmo] at hp
    exact Or.inl hp
  | some mc =>
    rw [CompareFiles_dup_some rights off kgs0 dup0 hmo] at hp
    rcases List.mem_append.mp hp with h | h
    · exact Or.inl h
    · obtain ⟨s, hs, hps⟩ := List.mem_map.mp h
      have hsf := List.mem_filter.mp hs
      have hrem0 : s.rem = [] := by
        have := hsf.2
        simpa [List.isEmpty_iff] using this
      obtain ⟨ct, hct, hdr⟩ := (session_inv hmo rights off kgs0).1 s hsf.1 hrem0
      exact Or.inr ⟨mc, ct, rfl, by rw [← hps]; exact hct, hdr⟩

/-- Facts about the key-group map produced by one comparator call: every path
newly inserted under key `k` diverges from the master first at offset `k.1`
with its own byte value `k.2` there. -/
theorem CompareFiles_kgs_spec {fs : FS} {m : String} {rights : List String}
    {off : Nat} {kgs0 : KeyGroups} {dup0 : List String} {k : GroupKey} {q : String}
    (hq : kgsMem (CompareFilesBufferedAdvanced fs m rights off kgs0 dup0).1 k q) :
    kgsMem kgs0 k q ∨ ∃ cm, fs m = some cm ∧ KeyFact fs cm off k q := by
  cases hmo : fs m with
  | none =>
    rw [CompareFiles_master_none hmo] at hq
    exact Or.inl hq
  | some mc =>
    rw [CompareFiles_fst_some rights off kgs0 dup0 hmo] at hq
    rcases (session_inv hmo rights off kgs0).2 k q hq with h | h
    · exact Or.inl h
    · exact Or.inr ⟨mc, rfl, h⟩

theorem CompareFiles_count {fs : FS} {m : String} (rights : List String)
    (off : Nat) (kgs0 : KeyGroups) (dup0 : List String) :
    kgsSize (CompareFilesBufferedAdvanced fs m rights off kgs0 dup0).1 ≤
      kgsSize kgs0 + rights.length := by
  cases hmo : fs m with
  | none =>
    rw [CompareFiles_master_none hmo]
    show kgsSize kgs0 ≤ kgsSize kgs0 + rights.length
    omega
  | some mc =>
    rw [CompareFiles_fst_some rights off kgs0 dup0 hmo]
    have h1 := compareLoopAux_count (mc.drop off).length (mc.drop off) off
      (sessionStates fs rights off) kgs0
    have h2 : (sessionStates fs rights off).length ≤ rights.length :=
      List.length_filterMap_le ..
    omega

theorem CompareFiles_count_paths {fs : FS} {m : String} (rights : List String)
    (off : Nat) (kgs0 : KeyGroups) (dup0 : List String) (x : String) :
    (outPaths (CompareFilesBufferedAdvanced fs m rights off kgs0 dup0).1).count x +
      ((CompareFilesBufferedAdvanced fs m rights off kgs0 dup0).2.1).count x ≤
    (outPaths kgs0).count x + dup0.count x + rights.count x := by
  cases hmo : fs m with
  | none =>
    rw [CompareFiles_master_none hmo]
    show (outPaths kgs0).count x + dup0.count x ≤ _
    omega
  | some mc =>
    rw [CompareFiles_fst_some rights off kgs0 dup0 hmo,
      CompareFiles_dup_some rights off kgs0 dup0 hmo]
    rw [List.count_append]
    have h1 := compareLoopAux_count_paths (mc.drop off).length (mc.drop off) off
      (sessionStates fs rights off) kgs0 x
    have h2 : (((compareLoopAux (mc.drop off).length (mc.drop off) off
        (sessionStates fs rights off) kgs0).1.filter
          fun s => s.rem.isEmpty).map fun s => s.filePath).count x ≤
        ((compareLoopAux (mc.drop off).length (mc.drop off) off
          (sessionStates fs rights off) kgs0).1.map fun s => s.filePath).count x :=
      List.Sublist.count_le
        (List.Sublist.map (fun (s : RightFileState) => s.filePath)
          (List.filter_sublist _)) x
    have h3 : ((sessionStates fs rights off).map fun s => s.filePath).count x ≤
        rights.count x := by
      rw [sessionStates_paths]
      exact List.Sublist.count_le (List.filter_sublist rights) x
    omega

theorem CompareFiles_keys_nodup {fs : FS} {m : String} (rights : List String)
    (off : Nat) (kgs0 : KeyGroups) (dup0 : List String)
    (h : ((kgs0.map fun e => e.1)).Nodup) :
    (((CompareFilesBufferedAdvanced fs m rights off kgs0 dup0).1.map fun e => e.1)).Nodup := by
  cases hmo : fs m with
  | none => rw [CompareFiles_master_none hmo]; exact h
  | some mc =>
    rw [CompareFiles_fst_some rights off kgs0 dup0 hmo]
    exact compareLoopAux_keys_nodup _ _ _ _ _ h

/-- Removing a right file whose stream fails to open does not change the key
groups or the duplicate group computed by the comparator. -/
theorem CompareFiles_skip_unopenable {fs : FS} {m : String} {l1 l2 : List String}
    {off : Nat} {kgs0 : KeyGroups} {dup0 : List String} {p : String}
    (hp : fs p = none) :
    (CompareFilesBufferedAdvanced fs m (l1 ++ p :: l2) off kgs0 dup0).1 =
      (CompareFilesBufferedAdvanced fs m (l1 ++ l2) off kgs0 dup0).1 ∧
    (CompareFilesBufferedAdvanced fs m (l1 ++ p :: l2) off kgs0 dup0).2.1 =
      (CompareFilesBufferedAdvanced fs m (l1 ++ l2) off kgs0 dup0).2.1 := by
  have hstates : sessionStates fs (l1 ++ p :: l2) off = sessionStates fs (l1 ++ l2) off := by
    unfold sessionStates
    rw [List.filterMap_append, List.filterMap_append, List.filterMap_cons]
    rw [hp]
  cases hmo : fs m with
  | none =>
    rw [CompareFiles_master_none hmo, CompareFiles_master_none hmo]
    exact ⟨rfl, rfl⟩
  | some mc =>
    rw [CompareFiles_master_some _ off kgs0 dup0 hmo, CompareFiles_master_some _ off kgs0 dup0 hmo,
      hstates]
    exact ⟨rfl, rfl⟩

/-! ### Lifting the session facts through the batching loop -/

theorem compareBatchesAux_succ (fs : FS) (pivot : String) (fuel : Nat)
    (rights : List String) (off : Nat) (kgs : KeyGroups) (dup : List String)
    (logs : List LogEvent) :
    compareBatchesAux fs pivot (fuel + 1) rights off kgs dup logs =
      if rights = [] then (kgs, dup, logs)
      else compareBatchesAux fs pivot fuel (rights.drop MAX_BATCH) off
        (CompareFilesBufferedAdvanced fs pivot (rights.take MAX_BATCH) off kgs dup).1
        (CompareFilesBufferedAdvanced fs pivot (rights.take MAX_BATCH) off kgs dup).2.1
        (logs ++
          (CompareFilesBufferedAdvanced fs pivot (rights.take MAX_BATCH) off kgs dup).2.2) :=
  rfl

theorem compareBatchesAux_dup_spec (fs : FS) (pivot : String) (fuel : Nat) :
    ∀ (rights : List String) (off : Nat) (kgs : KeyGroups) (dup : List String)
      (logs : List LogEvent) {p : String},
      p ∈ (compareBatchesAux fs pivot fuel rights off kgs dup logs).2.1 →
      p ∈ dup ∨ ∃ cm ct, fs pivot = some cm ∧ fs p = some ct ∧
        ct.drop off = cm.drop off := by
  induction fuel with
  | zero => intro rights off kgs dup logs p hp; exact Or.inl hp
  | succ fuel ih =>
    intro rights off kgs dup logs p hp
    rw [compareBatchesAux_succ] at hp
    by_cases hr : rights = []
    · rw [if_pos hr] at hp; exact Or.inl hp
    · rw [if_neg hr] at hp
      rcases ih _ _ _ _ _ hp with h | h
      · exact CompareFiles_dup_spec h
      · exact Or.inr h

theorem compareBatchesAux_kgs_spec (fs : FS) (pivot : String) (fuel : Nat) :
    ∀ (rights : List String) (off : Nat) (kgs : KeyGroups) (dup : List String)
      (logs : List LogEvent) {k : GroupKey} {q : String},
      kgsMem (compareBatchesAux fs pivot fuel rights off kgs dup logs).1 k q →
      kgsMem kgs k q ∨ ∃ cm, fs pivot = some cm ∧ KeyFact fs cm off k q := by
  induction fuel with
  | zero => intro rights off kgs dup logs k q hq; exact Or.inl hq
  | succ fuel ih =>
    intro rights off kgs dup logs k q hq
    rw [compareBatchesAux_succ] at hq
    by_cases hr : rights = []
    · rw [if_pos hr] at hq; exact Or.inl hq
    · rw [if_neg hr] at hq
      rcases ih _ _ _ _ _ hq with h | h
      · exact CompareFiles_kgs_spec h
      · exact Or.inr h

theorem compareBatchesAux_count (fs : FS) (pivot : String) (fuel : Nat) :
    ∀ (rights : List String) (off : Nat) (kgs : KeyGroups) (dup : List String)
      (logs : List LogEvent),
    kgsSize (compareBatchesAux fs pivot fuel rights off kgs dup logs).1 ≤
      kgsSize kgs + rights.length := by
  induction fuel with
  | zero =>
    intro rights off kgs dup logs
    show kgsSize kgs ≤ _
    omega
  | succ fuel ih =>
    intro rights off kgs dup logs
    rw [compareBatchesAux_succ]
    by_cases hr : rights = []
    · rw [if_pos hr]
      show kgsSize kgs ≤ _
      omega
    · rw [if_neg hr]
      have h1 := @CompareFiles_count fs pivot (rights.take MAX_BATCH) off kgs dup
      have h2 := ih (rights.drop MAX_BATCH) off
        (CompareFilesBufferedAdvanced fs pivot (rights.take MAX_BATCH) off kgs dup).1
        (CompareFilesBufferedAdvanced fs pivot (rights.take MAX_BATCH) off kgs dup).2.1
        (logs ++
          (CompareFilesBufferedAdvanced fs pivot (rights.take MAX_BATCH) off kgs dup).2.2)
      have h3 : (rights.take MAX_BATCH).length + (rights.drop MAX_BATCH).length =
          rights.length := by
        rw [← List.length_append, List.take_append_drop]
      omega

theorem compareBatchesAux_count_paths (fs : FS) (pivot : String) (fuel : Nat) :
    ∀ (rights : List String) (off : Nat) (kgs : KeyGroups) (dup : List String)
      (logs : List LogEvent) (x : String),
    (outPaths (compareBatchesAux fs pivot fuel rights off kgs dup logs).1).count x +
      ((compareBatchesAux fs pivot fuel rights off kgs dup logs).2.1).count x ≤
    (outPaths kgs).count x + dup.count x + rights.count x := by
  induction fuel with
  | zero =>
    intro rights off kgs dup logs x
    show (outPaths kgs).count x + dup.count x ≤ _
    omega
  | succ fuel ih =>
    intro rights off kgs dup logs x
    rw [compareBatchesAux_succ]
    by_cases hr : rights = []
    · rw [if_pos hr]
      show (outPaths kgs).count x + dup.count x ≤ _
      omega
    · rw [if_neg hr]
      have h1 := @CompareFiles_count_paths fs pivot
        (rights.take MAX_BATCH) off kgs dup x
      have h2 := ih (rights.drop MAX_BATCH) off
        (CompareFilesBufferedAdvanced fs pivot (rights.take MAX_BATCH) off kgs dup).1
        (CompareFilesBufferedAdvanced fs pivot (rights.take MAX_BATCH) off kgs dup).2.1
        (logs ++
          (CompareFilesBufferedAdvanced fs pivot (rights.take MAX_BATCH) off kgs dup).2.2) x
      have h3 : (rights.take MAX_BATCH).count x + (rights.drop MAX_BATCH).count x =
          rights.count x := by
        rw [← List.count_append, List.take_append_drop]
      omega

theorem compareBatchesAux_keys_nodup (fs : FS) (pivot : String) (fuel : Nat) :
    ∀ (rights : List String) (off : Nat) (kgs : KeyGroups) (dup : List String)
      (logs : List LogEvent),
    ((kgs.map fun e => e.1)).Nodup →
    (((compareBatchesAux fs pivot fuel rights off kgs dup logs).1.map fun e => e.1)).Nodup := by
  induction fuel with
  | zero => intro rights off kgs dup logs h; exact h
  | succ fuel ih =>
    intro rights off kgs dup logs h
    rw [compareBatchesAux_succ]
    by_cases hr : rights = []
    · rw [if_pos hr]; exact h
    · rw [if_neg hr]
      exact ih _ _ _ _ _ (CompareFiles_keys_nodup (rights.take MAX_BATCH) off kgs dup h)

/-- When the pivot's stream fails to open, every batch leaves the key groups
and the duplicate group untouched. -/
theorem compareBatchesAux_master_none (fs : FS) (pivot : String) (fuel : Nat)
    (hm : fs pivot = none) :
    ∀ (rights : List String) (off : Nat) (kgs : KeyGroups) (dup : List String)
      (logs : List LogEvent),
    (compareBatchesAux fs pivot fuel rights off kgs dup logs).1 = kgs ∧
    (compareBatchesAux fs pivot fuel rights off kgs dup logs).2.1 = dup := by
  induction fuel with
  | zero => intro rights off kgs dup logs; exact ⟨rfl, rfl⟩
  | succ fuel ih =>
    intro rights off kgs dup logs
    rw [compareBatchesAux_succ]
    by_cases hr : rights = []
    · rw [if_pos hr]; exact ⟨rfl, rfl⟩
    · rw [if_neg hr]
      rw [CompareFiles_master_none hm]
      exact ih _ _ _ _ _

/-! ### Facts about one partitioning call's pivot session -/

theorem files_head_cons_tail {files : List String} (h : 2 ≤ files.length) :
    files.headD "" :: files.tail = files := by
  cases files with
  | nil => simp at h
  | cons a l => rfl

theorem pivotSession_def (fs : FS) (files : List String) (off : Nat) :
    pivotSession fs files off =
      compareBatchesAux fs (files.headD "") files.tail.length files.tail off []
        [files.headD ""] [] := rfl

theorem pivotSession_count (fs : FS) (files : List String) (off : Nat) :
    kgsSize (pivotSession fs files off).1 ≤ files.tail.length := by
  rw [pivotSession_def]
  have := compareBatchesAux_count fs (files.headD "") files.tail.length files.tail off []
    [files.headD ""] []
  simpa [kgsSize] using this

theorem pivotSession_dup_spec {fs : FS} {files : List String} {off : Nat} {p : String}
    (hp : p ∈ (pivotSession fs files off).2.1) :
    p = files.headD "" ∨ ∃ cm ct, fs (files.headD "") = some cm ∧ fs p = some ct ∧
      ct.drop off = cm.drop off := by
  rw [pivotSession_def] at hp
  rcases compareBatchesAux_dup_spec fs (files.headD "") files.tail.length files.tail off []
    [files.headD ""] [] hp with h | h
  · exact Or.inl (by simpa using h)
  · exact Or.inr h

theorem pivotSession_kgs_spec {fs : FS} {files : List String} {off : Nat}
    {k : GroupKey} {q : String} (hq : kgsMem (pivotSession fs files off).1 k q) :
    ∃ cm, fs (files.headD "") = some cm ∧ KeyFact fs cm off k q := by
  rw [pivotSession_def] at hq
  rcases compareBatchesAux_kgs_spec fs (files.headD "") files.tail.length files.tail off []
    [files.headD ""] [] hq with h | h
  · exact absurd h (by simp [kgsMem, bucketOf])
  · exact h

theorem pivotSession_count_paths (fs : FS) (files : List String) (off : Nat)
    (h2 : 2 ≤ files.length) (x : String) :
    (outPaths (pivotSession fs files off).1).count x +
      ((pivotSession fs files off).2.1).count x ≤ files.count x := by
  rw [pivotSession_def]
  have h := compareBatchesAux_count_paths fs (files.headD "") files.tail.length files.tail off
    [] [files.headD ""] [] x
  have hc : ([files.headD ""] : List String).count x + files.tail.count x = files.count x := by
    conv_rhs => rw [← files_head_cons_tail h2]
    simp only [List.count_cons, List.count_nil]
    omega
  simp only [outPaths_nil, List.count_nil] at h
  omega

theorem pivotSession_keys_nodup (fs : FS) (files : List String) (off : Nat) :
    (((pivotSession fs files off).1.map fun e => e.1)).Nodup := by
  rw [pivotSession_def]
  exact compareBatchesAux_keys_nodup fs (files.headD "") files.tail.length files.tail off []
    [files.headD ""] [] (by simp)

theorem pivotSession_master_none {fs : FS} {files : List String} {off : Nat}
    (hm : fs (files.headD "") = none) :
    (pivotSession fs files off).1 = [] ∧
      (pivotSession fs files off).2.1 = [files.headD ""] := by
  rw [pivotSession_def]
  exact compareBatchesAux_master_none fs (files.headD "") files.tail.length hm files.tail off
    [] [files.headD ""] []

/-- Membership in a bucket of the session's key-group map, stated for an
entry of the association list. -/
theorem pivotSession_bucket_mem {fs : FS} {files : List String} {off : Nat}
    {k : GroupKey} {b : List String} {p : String}
    (hb : (k, b) ∈ (pivotSession fs files off).1) (hp : p ∈ b) :
    kgsMem (pivotSession fs files off).1 k p := by
  unfold kgsMem
  rw [bucketOf_eq_of_mem (pivotSession_keys_nodup fs files off) hb]
  exact hp

theorem mem_outPaths_of_bucket {kgs : KeyGroups} {k : GroupKey} {b : List String}
    {p : String} (hb : (k, b) ∈ kgs) (hp : p ∈ b) : p ∈ outPaths kgs := by
  unfold outPaths
  exact List.mem_flatten.mpr ⟨b, List.mem_map.mpr ⟨(k, b), hb, rfl⟩, hp⟩

/-- A path in a session bucket is one of the input files. -/
theorem pivotSession_bucket_sub {fs : FS} {files : List String} {off : Nat}
    {k : GroupKey} {b : List String} {p : String} (h2 : 2 ≤ files.length)
    (hb : (k, b) ∈ (pivotSession fs files off).1) (hp : p ∈ b) : p ∈ files := by
  have h1 : p ∈ outPaths (pivotSession fs files off).1 := mem_outPaths_of_bucket hb hp
  have hc := pivotSession_count_paths fs files off h2 p
  have : 0 < (outPaths (pivotSession fs files off).1).count p :=
    List.count_pos_iff.mpr h1
  exact List.count_pos_iff.mp (by omega)

/-- A path in the session's duplicate group is one of the input files. -/
theorem pivotSession_dup_sub {fs : FS} {files : List String} {off : Nat} {p : String}
    (h2 : 2 ≤ files.length) (hp : p ∈ (pivotSession fs files off).2.1) : p ∈ files := by
  have hc := pivotSession_count_paths fs files off h2 p
  have : 0 < ((pivotSession fs files off).2.1).count p := List.count_pos_iff.mpr hp
  exact List.count_pos_iff.mp (by omega)

/-! ### Facts about the recursive partitioner -/

theorem groupFilesAux_succ (fs : FS) (fuel : Nat) (files : List String) (off : Nat) :
    groupFilesAux fs (fuel + 1) files off =
      if files.length < 2 then []
      else
        (if 1 < (pivotSession fs files off).2.1.length
          then [(pivotSession fs files off).2.1] else []) ++
          ((pivotSession fs files off).1.map fun e =>
            if 1 < e.2.length then groupFilesAux fs fuel e.2 e.1.1 else []).flatten := rfl

theorem mem_groupFilesAux_cases {fs : FS} {fuel : Nat} {files : List String} {off : Nat}
    {G : List String} (h : G ∈ groupFilesAux fs (fuel + 1) files off) :
    2 ≤ files.length ∧
      ((G = (pivotSession fs files off).2.1 ∧ 1 < G.length) ∨
        ∃ e ∈ (pivotSession fs files off).1, 1 < e.2.length ∧
          G ∈ groupFilesAux fs fuel e.2 e.1.1) := by
  rw [groupFilesAux_succ] at h
  by_cases h2 : files.length < 2
  · rw [if_pos h2] at h; cases h
  · rw [if_neg h2] at h
    refine ⟨by omega, ?_⟩
    rcases List.mem_append.mp h with h | h
    · left
      by_cases hb : 1 < (pivotSession fs files off).2.1.length
      · rw [if_pos hb] at h
        rcases List.mem_singleton.mp h with rfl
        exact ⟨rfl, hb⟩
      · rw [if_neg hb] at h; cases h
    · right
      obtain ⟨l, hl, hGl⟩ := List.mem_flatten.mp h
      obtain ⟨e, he, hle⟩ := List.mem_map.mp hl
      by_cases hb : 1 < e.2.length
      · exact ⟨e, he, hb, by rw [← hle] at hGl; rwa [if_pos hb] at hGl⟩
      · rw [← hle, if_neg hb] at hGl; cases hGl

theorem groupFilesAux_min_len (fs : FS) (fuel : Nat) :
    ∀ (files : List String) (off : Nat) (G : List String),
      G ∈ groupFilesAux fs fuel files off → 2 ≤ G.length := by
  induction fuel with
  | zero => intro files off G h; cases h
  | succ fuel ih =>
    intro files off G h
    rcases (mem_groupFilesAux_cases h).2 with ⟨_, hlen⟩ | ⟨e, _, _, hmem⟩
    · omega
    · exact ih e.2 e.1.1 G hmem

theorem groupFilesAux_sub (fs : FS) (fuel : Nat) :
    ∀ (files : List String) (off : Nat) (G : List String),
      G ∈ groupFilesAux fs fuel files off → ∀ x ∈ G, x ∈ files := by
  induction fuel with
  | zero => intro files off G h; cases h
  | succ fuel ih =>
    intro files off G h x hx
    obtain ⟨h2, hcase⟩ := mem_groupFilesAux_cases h
    rcases hcase with ⟨hG, _⟩ | ⟨e, he, _, hmem⟩
    · exact pivotSession_dup_sub h2 (hG ▸ hx)
    · exact pivotSession_bucket_sub h2 (by exact he) (ih e.2 e.1.1 G hmem x hx)

/-- Every member of an emitted group opened successfully. -/
theorem groupFilesAux_opened (fs : FS) (fuel : Nat) :
    ∀ (files : List String) (off : Nat) (G : List String),
      G ∈ groupFilesAux fs fuel files off → ∀ x ∈ G, ∃ ct, fs x = some ct := by
  induction fuel with
  | zero => intro files off G h; cases h
  | succ fuel ih =>
    intro files off G h x hx
    obtain ⟨h2, hcase⟩ := mem_groupFilesAux_cases h
    rcases hcase with ⟨hG, hlen⟩ | ⟨e, he, _, hmem⟩
    · cases hpm : fs (files.headD "") with
      | none =>
        rw [hG, (pivotSession_master_none hpm).2] at hlen
        simp at hlen
      | some cm =>
        rcases pivotSession_dup_spec (hG ▸ hx) with h | ⟨cm', ct, _, hct, _⟩
        · exact ⟨cm, h ▸ hpm⟩
        · exact ⟨ct, hct⟩
    · exact ih e.2 e.1.1 G hmem x hx

theorem outPaths_def (kgs : KeyGroups) : outPaths kgs = (kgs.map fun e => e.2).flatten := rfl

theorem entry_length_le_kgsSize {kgs : KeyGroups} {e : GroupKey × List String}
    (h : e ∈ kgs) : e.2.length ≤ kgsSize kgs := by
  induction kgs with
  | nil => cases h
  | cons e' rest ih =>
    rcases List.mem_cons.mp h with h | h
    · subst h; rw [kgsSize_cons]; omega
    · have := ih h; rw [kgsSize_cons]; omega

theorem pivotSession_bucket_len {fs : FS} {files : List String} {off : Nat}
    {e : GroupKey × List String} (h2 : 2 ≤ files.length)
    (he : e ∈ (pivotSession fs files off).1) : e.2.length < files.length := by
  have h1 := entry_length_le_kgsSize he
  have h3 := pivotSession_count fs files off
  have h4 : files.tail.length = files.length - 1 := by rw [List.length_tail]
  omega

/-- Byte-identity of all members of every emitted group, given that all input
files agree on the prefix `[0, off)`. -/
theorem groupFilesAux_content (fs : FS) (fuel : Nat) :
    ∀ (files : List String) (off : Nat),
      (∀ p ∈ files, ∀ q ∈ files,
        Option.map (List.take off) (fs p) = Option.map (List.take off) (fs q)) →
      ∀ G ∈ groupFilesAux fs fuel files off, ∀ a ∈ G, ∀ b ∈ G,
        ∀ ca cb, fs a = some ca → fs b = some cb → ca = cb := by
  induction fuel with
  | zero => intro files off hpre G hG; cases hG
  | succ fuel ih =>
    intro files off hpre G hG a ha b hb ca cb hca hcb
    obtain ⟨h2, hcase⟩ := mem_groupFilesAux_cases hG
    have hpiv_mem : files.headD "" ∈ files := by
      rw [← files_head_cons_tail h2]; exact List.mem_cons_self ..
    rcases hcase with ⟨hGd, hlen⟩ | ⟨e, he, helen, hmem⟩
    · cases hpm : fs (files.headD "") with
      | none =>
        rw [hGd, (pivotSession_master_none hpm).2] at hlen
        simp at hlen
      | some cm =>
        have key : ∀ x ∈ G, ∀ cx, fs x = some cx → cx = cm := by
          intro x hx cx hcx
          rcases pivotSession_dup_spec (hGd ▸ hx) with hxp | ⟨cm', ct, hcm', hct, hdr⟩
          · rw [hxp] at hcx
            exact Option.some.inj (hcx.symm.trans hpm)
          · have hcmeq : cm' = cm := Option.some.inj (hcm'.symm.trans hpm)
            have hcteq : ct = cx := Option.some.inj (hct.symm.trans hcx)
            rw [hcmeq, hcteq] at hdr
            have hxfiles : x ∈ files := groupFilesAux_sub fs (fuel + 1) files off G hG x hx
            have htake0 : cx.take off = cm.take off := by
              have hp := hpre x hxfiles (files.headD "") hpiv_mem
              rw [hcx, hpm] at hp
              simpa using hp
            calc cx = cx.take off ++ cx.drop off := (List.take_append_drop ..).symm
              _ = cm.take off ++ cm.drop off := by rw [htake0, hdr]
              _ = cm := List.take_append_drop ..
        rw [key a ha ca hca, key b hb cb hcb]
    · cases hpm : fs (files.headD "") with
      | none =>
        rw [(pivotSession_master_none hpm).1] at he
        cases he
      | some cm =>
        have hfix : ∀ p ∈ e.2,
            Option.map (List.take e.1.1) (fs p) = some (cm.take e.1.1) := by
          intro p hp
          obtain ⟨cm', hcm', hkf⟩ :=
            pivotSession_kgs_spec (pivotSession_bucket_mem (by exact he) hp)
          obtain ⟨ct, hct, hle, hrel, _, _⟩ := hkf
          have hcmeq : cm' = cm := Option.some.inj (hcm'.symm.trans hpm)
          rw [hcmeq] at hrel
          have hpmem : p ∈ files := pivotSession_bucket_sub h2 (by exact he) hp
          have htake0 : ct.take off = cm.take off := by
            have hq := hpre p hpmem (files.headD "") hpiv_mem
            rw [hct, hpm] at hq
            simpa using hq
          have htakek : ct.take e.1.1 = cm.take e.1.1 := by
            have hsplit : e.1.1 = off + (e.1.1 - off) := by omega
            rw [hsplit, List.take_add, List.take_add, htake0, hrel]
          rw [hct]
          simpa using htakek
        have hpre' : ∀ p ∈ e.2, ∀ q ∈ e.2,
            Option.map (List.take e.1.1) (fs p) = Option.map (List.take e.1.1) (fs q) := by
          intro p hp q hq
          rw [hfix p hp, hfix q hq]
        exact ih e.2 e.1.1 hpre' G hmem a ha b hb ca cb hca hcb

/-- The fuel argument of `groupFilesAux` does not matter once it is at least
the candidate count: this is the termination argument of the C++ recursion
(every bucket is strictly smaller than its parent candidate set). -/
theorem groupFilesAux_mono (fs : FS) :
    ∀ (fuel fuel' : Nat) (files : List String) (off : Nat),
    files.length ≤ fuel → files.length ≤ fuel' →
    groupFilesAux fs fuel files off = groupFilesAux fs fuel' files off := by
  intro fuel
  induction fuel with
  | zero =>
    intro fuel' files off h h'
    have hf : files.length < 2 := by omega
    cases fuel' with
    | zero => rfl
    | succ n => rw [groupFilesAux_succ, if_pos hf]; rfl
  | succ fuel ih =>
    intro fuel' files off h h'
    cases fuel' with
    | zero =>
      have hf : files.length < 2 := by omega
      rw [groupFilesAux_succ, if_pos hf]
      rfl
    | succ fuel'' =>
      by_cases h2 : files.length < 2
      · rw [groupFilesAux_succ, groupFilesAux_succ, if_pos h2, if_pos h2]
      · rw [groupFilesAux_succ, groupFilesAux_succ, if_neg h2, if_neg h2]
        congr 1
        apply congrArg List.flatten
        apply List.map_congr_left
        intro e he
        by_cases hb : 1 < e.2.length
        · rw [if_pos hb, if_pos hb]
          have hbl : e.2.length < files.length := pivotSession_bucket_len (by omega) he
          exact ih fuel'' e.2 e.1.1 (by omega) (by omega)
        · rw [if_neg hb, if_neg hb]

/-- The recursion equation actually satisfied by `GroupFilesByContentUsingMap`:
one duplicate group for the pivot when it kept at least one survivor, plus a
recursive call on every bucket with at least two members. -/
theorem GroupFiles_recurrence (fs : FS) (files : List String) (off : Nat)
    (h2 : 2 ≤ files.length) :
    GroupFilesByContentUsingMap fs files off =
      (if 1 < (pivotSession fs files off).2.1.length
        then [(pivotSession fs files off).2.1] else []) ++
        ((pivotSession fs files off).1.map fun e =>
          if 1 < e.2.length then GroupFilesByContentUsingMap fs e.2 e.1.1 else []).flatten := by
  unfold GroupFilesByContentUsingMap
  obtain ⟨n, hn⟩ : ∃ n, files.length = n + 1 := ⟨files.length - 1, by omega⟩
  rw [hn, groupFilesAux_succ, if_neg (by omega)]
  congr 1
  apply congrArg List.flatten
  apply List.map_congr_left
  intro e he
  by_cases hb : 1 < e.2.length
  · rw [if_pos hb, if_pos hb]
    have hbl : e.2.length < files.length := pivotSession_bucket_len h2 he
    exact groupFilesAux_mono fs n e.2.length e.2 e.1.1 (by omega) (le_refl _)
  · rw [if_neg hb, if_neg hb]

/-- With distinct input paths, the session routes each path to at most one
place: the bucket paths plus the duplicate group form a duplicate-free list. -/
theorem pivotSession_nodup {fs : FS} {files : List String} {off : Nat}
    (h2 : 2 ≤ files.length) (hnd : files.Nodup) :
    (outPaths (pivotSession fs files off).1 ++ (pivotSession fs files off).2.1).Nodup := by
  rw [List.nodup_iff_count_le_one]
  intro x
  rw [List.count_append]
  have h := pivotSession_count_paths fs files off h2 x
  have := List.nodup_iff_count_le_one.mp hnd x
  omega

/-- Emitted groups are pairwise disjoint when the input paths are distinct. -/
theorem groupFilesAux_disjoint (fs : FS) :
    ∀ (fuel : Nat) (files : List String) (off : Nat), files.Nodup →
    List.Pairwise (fun G H => ∀ x ∈ G, x ∉ H) (groupFilesAux fs fuel files off) := by
  intro fuel
  induction fuel with
  | zero => intro files off hnd; exact List.Pairwise.nil
  | succ fuel ih =>
    intro files off hnd
    rw [groupFilesAux_succ]
    by_cases h2 : files.length < 2
    · rw [if_pos h2]; exact List.Pairwise.nil
    · rw [if_neg h2]
      have h2' : 2 ≤ files.length := by omega
      obtain ⟨hOut, hDup, hODdisj⟩ := List.nodup_append.mp (pivotSession_nodup h2' hnd)
      obtain ⟨hEachBucket, hPairDisj⟩ := List.nodup_flatten.mp (outPaths_def _ ▸ hOut)
      rw [List.pairwise_append]
      refine ⟨?_, ?_, ?_⟩
      · by_cases hb : 1 < (pivotSession fs files off).2.1.length
        · rw [if_pos hb]; simp
        · rw [if_neg hb]; exact List.Pairwise.nil
      · rw [List.pairwise_flatten]
        constructor
        · intro l hl
          obtain ⟨e, he, hle⟩ := List.mem_map.mp hl
          subst hle
          by_cases hb : 1 < e.2.length
          · rw [if_pos hb]
            exact ih e.2 e.1.1 (hEachBucket e.2 (List.mem_map.mpr ⟨e, he, rfl⟩))
          · rw [if_neg hb]; exact List.Pairwise.nil
        · rw [List.pairwise_map]
          refine (List.pairwise_map.mp hPairDisj).imp ?_
          intro e1 e2 hdisj G hG H hH x hxG hxH
          by_cases hb1 : 1 < e1.2.length
          · rw [if_pos hb1] at hG
            by_cases hb2 : 1 < e2.2.length
            · rw [if_pos hb2] at hH
              have hx1 : x ∈ e1.2 := groupFilesAux_sub fs fuel e1.2 e1.1.1 G hG x hxG
              have hx2 : x ∈ e2.2 := groupFilesAux_sub fs fuel e2.2 e2.1.1 H hH x hxH
              exact hdisj hx1 hx2
            · rw [if_neg hb2] at hH; cases hH
          · rw [if_neg hb1] at hG; cases hG
      · intro G hG H hH x hxG
        by_cases hb : 1 < (pivotSession fs files off).2.1.length
        · rw [if_pos hb] at hG
          rcases List.mem_singleton.mp hG with rfl
          obtain ⟨l, hl, hHl⟩ := List.mem_flatten.mp hH
          obtain ⟨e, he, hle⟩ := List.mem_map.mp hl
          subst hle
          by_cases hbe : 1 < e.2.length
          · rw [if_pos hbe] at hHl
            intro hxH
            have hxe : x ∈ e.2 := groupFilesAux_sub fs fuel e.2 e.1.1 H hHl x hxH
            exact hODdisj (mem_outPaths_of_bucket (by exact he) hxe) hxG
          · rw [if_neg hbe] at hHl; cases hHl
        · rw [if_neg hb] at hG; cases hG

/-- A bucket with exactly one member is dropped: its path appears in no
emitted duplicate group of the call (distinct input paths assumed). -/
theorem singleton_bucket_excluded {fs : FS} {files : List String} {off : Nat}
    (hnd : files.Nodup) (h2 : 2 ≤ files.length) {k : GroupKey} {p : String}
    (hk : (k, [p]) ∈ (pivotSession fs files off).1) :
    ∀ G ∈ GroupFilesByContentUsingMap fs files off, p ∉ G := by
  intro G hG hpG
  rw [GroupFiles_recurrence fs files off h2] at hG
  obtain ⟨hOut, hDup, hODdisj⟩ := List.nodup_append.mp (pivotSession_nodup h2 hnd)
  have hpOut : p ∈ outPaths (pivotSession fs files off).1 :=
    mem_outPaths_of_bucket hk (List.mem_singleton_self p)
  rcases List.mem_append.mp hG with h | h
  · by_cases hb : 1 < (pivotSession fs files off).2.1.length
    · rw [if_pos hb] at h
      rcases List.mem_singleton.mp h with rfl
      exact hODdisj hpOut hpG
    · rw [if_neg hb] at h; cases h
  · obtain ⟨l, hl, hGl⟩ := List.mem_flatten.mp h
    obtain ⟨e, he, hle⟩ := List.mem_map.mp hl
    subst hle
    by_cases hbe : 1 < e.2.length
    · rw [if_pos hbe] at hGl
      have hpe : p ∈ e.2 := by
        unfold GroupFilesByContentUsingMap at hGl
        exact groupFilesAux_sub fs e.2.length e.2 e.1.1 G hGl p hpG
      have hPair := (List.nodup_flatten.mp (outPaths_def _ ▸ hOut)).2
      have hne : ([p] : List String) ≠ e.2 := by
        intro hEq
        rw [← hEq] at hbe
        simp at hbe
      have hdisj := hPair.forall (fun _ _ h => h.symm)
        (List.mem_map.mpr ⟨(k, [p]), hk, rfl⟩) (List.mem_map.mpr ⟨e, he, rfl⟩) hne
      exact hdisj (List.mem_singleton_self p) hpe
    · rw [if_neg hbe] at hGl; cases hGl

/-! ### Facts about the hard-link deduplicator -/

theorem dedupMembers_nil (master : String) (masterId : Nat) (st : DedupState) :
    dedupMembers master masterId [] st = (st, []) := rfl

theorem dedupMembers_cons_none (master : String) (masterId : Nat) (d : String)
    (rest : List String) (st : DedupState) (hd : st.getId d = none) :
    dedupMembers master masterId (d :: rest) st =
      ((dedupMembers master masterId rest st).1,
        Action.queryId d :: (dedupMembers master masterId rest st).2) := by
  conv_lhs => rw [dedupMembers]
  rw [hd]

theorem dedupMembers_cons_skip (master : String) (masterId : Nat) (d : String)
    (rest : List String) (st : DedupState) (hd : st.getId d = some masterId) :
    dedupMembers master masterId (d :: rest) st =
      ((dedupMembers master masterId rest st).1,
        Action.queryId d :: (dedupMembers master masterId rest st).2) := by
  conv_lhs => rw [dedupMembers]
  rw [hd]
  dsimp only
  rw [if_pos rfl]

theorem dedupMembers_cons_delfail (master : String) (masterId : Nat) (d : String)
    (rest : List String) (st : DedupState) (dupId : Nat)
    (hd : st.getId d = some dupId) (hid : ¬ dupId = masterId)
    (hdel : st.deleteOk d = false) :
    dedupMembers master masterId (d :: rest) st =
      ((dedupMembers master masterId rest st).1,
        Action.queryId d :: Action.deleteFile d ::
          (dedupMembers master masterId rest st).2) := by
  conv_lhs => rw [dedupMembers]
  rw [hd]
  dsimp only
  rw [if_neg hid, if_neg (by rw [hdel]; exact Bool.false_ne_true)]

/-- The state after a successful delete, followed by the hard-link attempt,
for member `d` of a group with master `master`. -/
def dedupLinkState (st : DedupState) (d master : String) : DedupState :=
  let st1 : DedupState := { st with getId := setId st.getId d none }
  if st1.linkOk d then { st1 with getId := setId st1.getId d (st1.getId master) }
  else st1

theorem dedupMembers_cons_del (master : String) (masterId : Nat) (d : String)
    (rest : List String) (st : DedupState) (dupId : Nat)
    (hd : st.getId d = some dupId) (hid : ¬ dupId = masterId)
    (hdel : st.deleteOk d = true) :
    dedupMembers master masterId (d :: rest) st =
      ((dedupMembers master masterId rest (dedupLinkState st d master)).1,
        Action.queryId d :: Action.deleteFile d :: Action.createLink d master ::
          (dedupMembers master masterId rest (dedupLinkState st d master)).2) := by
  conv_lhs => rw [dedupMembers]
  rw [hd]
  dsimp only
  rw [if_neg hid, if_pos hdel]
  exact rfl

theorem dedupLinkState_getId_other (st : DedupState) (d master p : String)
    (hp : p ≠ d) : (dedupLinkState st d master).getId p = st.getId p := by
  unfold dedupLinkState
  dsimp only
  by_cases hl : st.linkOk d = true
  · rw [if_pos hl]
    show setId (setId st.getId d none) d _ p = st.getId p
    unfold setId
    rw [if_neg hp, if_neg hp]
  · rw [if_neg hl]
    show setId st.getId d none p = st.getId p
    unfold setId
    rw [if_neg hp]

/-- Core invariant of the member loop: the master's identity is preserved,
and every delete or link in the trace targets a member of the list that is
not the master path. -/
theorem dedupMembers_spec (master : String) (masterId : Nat) :
    ∀ (mem : List String) (st : DedupState),
      st.getId master = some masterId →
      (dedupMembers master masterId mem st).1.getId master = st.getId master ∧
      (∀ p, Action.deleteFile p ∈ (dedupMembers master masterId mem st).2 →
        p ∈ mem ∧ p ≠ master) ∧
      (∀ p q, Action.createLink p q ∈ (dedupMembers master masterId mem st).2 →
        p ∈ mem ∧ p ≠ master ∧ q = master) := by
  intro mem
  induction mem with
  | nil =>
    intro st hm
    exact ⟨rfl, by simp [dedupMembers_nil], by simp [dedupMembers_nil]⟩
  | cons d rest ih =>
    intro st hm
    cases hd : st.getId d with
    | none =>
      obtain ⟨h1, h2, h3⟩ := ih st hm
      rw [dedupMembers_cons_none master masterId d rest st hd]
      refine ⟨h1, ?_, ?_⟩
      · intro p hp
        rcases List.mem_cons.mp hp with h | h
        · cases h
        · obtain ⟨hmem, hne⟩ := h2 p h
          exact ⟨List.mem_cons_of_mem d hmem, hne⟩
      · intro p q hp
        rcases List.mem_cons.mp hp with h | h
        · cases h
        · obtain ⟨hmem, hne, hq⟩ := h3 p q h
          exact ⟨List.mem_cons_of_mem d hmem, hne, hq⟩
    | some dupId =>
      by_cases hid : dupId = masterId
      · rw [hid] at hd
        obtain ⟨h1, h2, h3⟩ := ih st hm
        rw [dedupMembers_cons_skip master masterId d rest st hd]
        refine ⟨h1, ?_, ?_⟩
        · intro p hp
          rcases List.mem_cons.mp hp with h | h
          · cases h
          · obtain ⟨hmem, hne⟩ := h2 p h
            exact ⟨List.mem_cons_of_mem d hmem, hne⟩
        · intro p q hp
          rcases List.mem_cons.mp hp with h | h
          · cases h
          · obtain ⟨hmem, hne, hq⟩ := h3 p q h
            exact ⟨List.mem_cons_of_mem d hmem, hne, hq⟩
      · have hdm : d ≠ master := by
          intro hEq
          rw [hEq, hm] at hd
          exact hid (Option.some.inj hd).symm
        cases hdel : st.deleteOk d with
        | false =>
          obtain ⟨h1, h2, h3⟩ := ih st hm
          rw [dedupMembers_cons_delfail master masterId d rest st dupId hd hid hdel]
          refine ⟨h1, ?_, ?_⟩
          · intro p hp
            rcases List.mem_cons.mp hp with h | h
            · cases h
            · rcases List.mem_cons.mp h with h | h
              · rcases Action.deleteFile.injEq .. ▸ h with rfl
                exact ⟨List.mem_cons_self .., hdm⟩
              · obtain ⟨hmem, hne⟩ := h2 p h
                exact ⟨List.mem_cons_of_mem d hmem, hne⟩
          · intro p q hp
            rcases List.mem_cons.mp hp with h | h
            · cases h
            · rcases List.mem_cons.mp h with h | h
              · cases h
              · obtain ⟨hmem, hne, hq⟩ := h3 p q h
                exact ⟨List.mem_cons_of_mem d hmem, hne, hq⟩
        | true =>
          have hmst2 : (dedupLinkState st d master).getId master = some masterId := by
            rw [dedupLinkState_getId_other st d master master (fun h => hdm h.symm)]
            exact hm
          obtain ⟨h1, h2, h3⟩ := ih (dedupLinkState st d master) hmst2
          rw [dedupMembers_cons_del master masterId d rest st dupId hd hid hdel]
          refine ⟨by rw [h1, hmst2, hm], ?_, ?_⟩
          · intro p hp
            rcases List.mem_cons.mp hp with h | h
            · cases h
            · rcases List.mem_cons.mp h with h | h
              · rcases Action.deleteFile.injEq .. ▸ h with rfl
                exact ⟨List.mem_cons_self .., hdm⟩
              · rcases List.mem_cons.mp h with h | h
                · cases h
                · obtain ⟨hmem, hne⟩ := h2 p h
                  exact ⟨List.mem_cons_of_mem d hmem, hne⟩
          · intro p q hp
            rcases List.mem_cons.mp hp with h | h
            · cases h
            · rcases List.mem_cons.mp h with h | h
              · cases h
              · rcases List.mem_cons.mp h with h | h
                · rcases Action.createLink.injEq .. ▸ h with ⟨rfl, rfl⟩
                  exact ⟨List.mem_cons_self .., hdm, rfl⟩
                · obtain ⟨hmem, hne, hq⟩ := h3 p q h
                  exact ⟨List.mem_cons_of_mem d hmem, hne, hq⟩

/-- When every member already has the master's identity, the loop queries each
member's identity and does nothing else: same state, query-only trace. -/
theorem dedupMembers_all_skip (master : String) (masterId : Nat) :
    ∀ (mem : List String) (st : DedupState),
      (∀ d ∈ mem, st.getId d = some masterId) →
      dedupMembers master masterId mem st = (st, mem.map Action.queryId) := by
  intro mem
  induction mem with
  | nil => intro st h; rfl
  | cons d rest ih =>
    intro st h
    rw [dedupMembers_cons_skip master masterId d rest st (h d (List.mem_cons_self ..))]
    rw [ih st fun d' hd' => h d' (List.mem_cons_of_mem d hd')]
    rfl

theorem DeduplicateGroup_master_fail (st : DedupState) (m d : String)
    (rest : List String) (hm : st.getId m = none) :
    DeduplicateGroup st (m :: d :: rest) = (false, st, [Action.queryId m]) := by
  conv_lhs => rw [DeduplicateGroup]
  rw [hm]

theorem DeduplicateGroup_master_ok (st : DedupState) (m d : String)
    (rest : List String) (masterId : Nat) (hm : st.getId m = some masterId) :
    DeduplicateGroup st (m :: d :: rest) =
      (true, (dedupMembers m masterId (d :: rest) st).1,
        Action.queryId m :: (dedupMembers m masterId (d :: rest) st).2) := by
  conv_lhs => rw [DeduplicateGroup]
  rw [hm]

theorem DeduplicateGroup_small (st : DedupState) (g : List String)
    (h : g.length < 2) : DeduplicateGroup st g = (true, st, []) := by
  match g with
  | [] => rfl
  | [m] => rfl
  | m :: d :: rest => simp at h; omega

theorem wmainDedupLoop_cons (st : DedupState) (g : List String)
    (rest : List (List String)) :
    wmainDedupLoop st (g :: rest) =
      if (DeduplicateGroup st g).1 then
        wmainDedupLoop (DeduplicateGroup st g).2.1 rest
      else (1, (DeduplicateGroup st g).2.1) := rfl

theorem GroupFiles_small (fs : FS) (files : List String) (off : Nat)
    (h : files.length < 2) : GroupFilesByContentUsingMap fs files off = [] := by
  unfold GroupFilesByContentUsingMap
  cases hn : files.length with
  | zero => rfl
  | succ n => rw [groupFilesAux_succ, if_pos (by omega)]

/-! ### Example inputs used by the witnesses and counterexamples -/

/-- Two byte-identical files. -/
def fsAB : FS := fun s =>
  if s = "a" then some [7, 7, 7] else if s = "b" then some [7, 7, 7] else none

/-- Master and one right file diverging at offset 1: master byte 9,
candidate byte 7. -/
def fsC2 : FS := fun s =>
  if s = "m" then some [5, 9] else if s = "r" then some [5, 7] else none

/-- Master of 4 bytes and a strictly shorter candidate that agrees on its
whole length: the candidate's read comes up short. -/
def fsC3 : FS := fun s =>
  if s = "m" then some [1, 2, 3, 4] else if s = "s" then some [1, 2] else none

/-- Master of 4 bytes and a strictly shorter candidate that *diverges inside
its partial final chunk*: the length check fires before any comparison, so
it too is silently pruned into neither group nor bucket. -/
def fsC3b : FS := fun s =>
  if s = "m" then some [1, 2, 3, 4] else if s = "t" then some [1, 9] else none

/-- Three same-size files: two identical divergents. -/
def fsC4 : FS := fun s =>
  if s = "a" then some [1, 2] else
  if s = "b" then some [1, 3] else
  if s = "c" then some [1, 3] else none

/-- Three same-size files pairwise distinct from offset 1 on: both buckets
are singletons. -/
def fsC8 : FS := fun s =>
  if s = "a" then some [1, 2] else
  if s = "b" then some [1, 3] else
  if s = "c" then some [1, 4] else none

/-- A master, an unopenable candidate `"x"`, and a matching candidate. -/
def fsC9 : FS := fun s =>
  if s = "m" then some [1, 2] else
  if s = "x" then none else
  if s = "r" then some [1, 2] else none

/-- Four same-size files forming two duplicate pairs. -/
def fsC10 : FS := fun s =>
  if s = "a" then some [1, 2] else
  if s = "b" then some [1, 2] else
  if s = "c" then some [3, 4] else
  if s = "d" then some [3, 4] else none

/-- A state in which every identity query fails. -/
def stNone : DedupState := ⟨fun _ => none, fun _ => true, fun _ => true⟩

/-- A state in which every path already has identity 5 (all linked). -/
def stLinked : DedupState := ⟨fun _ => some 5, fun _ => true, fun _ => true⟩

/-! ### The claims -/

/-- C1: every `DuplicateGroup` emitted by `GroupFilesByContentUsingMap` —
given that all input files have equal size and agree on the bytes in
`[0, resumeOffset)` — consists of pairwise byte-identical files: any two
members have the same full contents. -/
theorem C1_group_members_byte_identical (fs : FS) (files : List String)
    (off N : Nat)
    (hsize : ∀ f ∈ files, Option.map List.length (fs f) = some N)
    (hpre : ∀ p ∈ files, ∀ q ∈ files,
      Option.map (List.take off) (fs p) = Option.map (List.take off) (fs q)) :
    ∀ G ∈ GroupFilesByContentUsingMap fs files off, ∀ a ∈ G, ∀ b ∈ G,
      ∀ ca cb, fs a = some ca → fs b = some cb → ca = cb := by
  intro G hG
  exact groupFilesAux_content fs files.length files off hpre G hG

theorem C1_witness :
    GroupFilesByContentUsingMap fsAB ["a", "b"] 0 = [["a", "b"]] ∧
      ([7, 7, 7] : List Nat) = [7, 7, 7] :=
  ⟨by decide,
    C1_group_members_byte_identical fsAB ["a", "b"] 0 3 (by decide) (by decide)
      ["a", "b"] (by decide) "a" (by decide) "b" (by decide)
      [7, 7, 7] [7, 7, 7] (by decide) (by decide)⟩

/-- C2 counterexample: at a concrete divergence, the comparator buckets the
candidate under the key `(1, 7)` whose byte value 7 is the *candidate's* byte
at the divergence (`rightBuffer[mismatchIndex]`); the pivot's byte there is 9,
and no bucket keyed by the pivot's byte exists.  This refutes the claim that
the bucket key carries the pivot's byte value. -/
theorem C2_counterexample :
    (CompareFilesBufferedAdvanced fsC2 "m" ["r"] 0 [] []).1 = [((1, 7), ["r"])] ∧
      Option.map (fun ct => ct.getD 1 0) (fsC2 "m") = some 9 ∧
      Option.map (fun ct => ct.getD 1 0) (fsC2 "r") = some 7 ∧
      ¬ kgsMem (CompareFilesBufferedAdvanced fsC2 "m" ["r"] 0 [] []).1 (1, 9) "r" := by
  decide

/-- C2 (amended): for every candidate whose chunk mismatches the pivot's
chunk, the comparator computes the first differing index and inserts the
candidate into the PartitionKey bucket keyed by the pair
(offset-so-far + index, the *candidate's* byte value at that index): every
bucketed path agrees with the pivot on `[off, k.1)`, carries byte `k.2` at
offset `k.1`, and the pivot's byte there differs. -/
theorem C2_bucket_key_is_candidate_byte (fs : FS) (m : String)
    (rights : List String) (off : Nat) (k : GroupKey) (q : String)
    (hq : kgsMem (CompareFilesBufferedAdvanced fs m rights off [] []).1 k q) :
    ∃ cm ct, fs m = some cm ∧ fs q = some ct ∧ off ≤ k.1 ∧
      (ct.drop off).take (k.1 - off) = (cm.drop off).take (k.1 - off) ∧
      ct[k.1]? = some k.2 ∧ cm[k.1]? ≠ some k.2 := by
  rcases CompareFiles_kgs_spec hq with h | ⟨cm, hcm, ct, hct, hle, hrel, hb1, hb2, _⟩
  · exact absurd h (by simp [kgsMem, bucketOf])
  · exact ⟨cm, ct, hcm, hct, hle, hrel, hb1, hb2⟩

theorem C2_witness :
    ∃ cm ct, fsC2 "m" = some cm ∧ fsC2 "r" = some ct ∧ (0 : Nat) ≤ 1 ∧
      (ct.drop 0).take (1 - 0) = (cm.drop 0).take (1 - 0) ∧
      ct[1]? = some 7 ∧ cm[1]? ≠ some 7 :=
  C2_bucket_key_is_candidate_byte fsC2 "m" ["r"] 0 (1, 7) "r" (by decide)

/-- C3 counterexample: the short-read candidate `"s"` is pruned — it lands in
no duplicate group and no PartitionKey bucket — but the comparator emits *no
log event at all*: the C++ short-read branch erases the candidate without
logging (only open failures are logged), refuting the "logged as an I/O
anomaly" part of the claim. -/
theorem C3_counterexample :
    CompareFilesBufferedAdvanced fsC3 "m" ["s"] 0 [] [] = ([], [], []) := by
  decide

/-- C3 (amended): for every active candidate whose read returns fewer bytes
than the pivot's chunk — semantically: its content from the resume offset is
strictly shorter than the pivot's and it agrees with the pivot on all of its
*complete* chunks, which is exactly the condition under which an active
candidate reaches the short-read branch (its partial final chunk is never
compared, so its bytes there are unconstrained and may diverge) — the
comparator prunes it silently as non-identical: it appears in neither the
duplicate group nor any PartitionKey bucket, and no log event mentions it
(the code does not log short reads; the only logs are open failures). -/
theorem C3_short_read_pruned_silently (fs : FS) (m p : String) (l : List String)
    (off : Nat) (cm ct : List Nat)
    (hm : fs m = some cm) (hp : fs p = some ct) (hmem : p ∈ l)
    (hshort : (ct.drop off).length < (cm.drop off).length)
    (hmatch : (ct.drop off).take ((ct.drop off).length / BUFFER_SIZE * BUFFER_SIZE) =
      (cm.drop off).take ((ct.drop off).length / BUFFER_SIZE * BUFFER_SIZE)) :
    p ∉ (CompareFilesBufferedAdvanced fs m l off [] []).2.1 ∧
    (∀ k, ¬ kgsMem (CompareFilesBufferedAdvanced fs m l off [] []).1 k p) ∧
    (∀ e ∈ (CompareFilesBufferedAdvanced fs m l off [] []).2.2,
      e ≠ LogEvent.openRightFail p ∧ e ≠ LogEvent.openMasterFail p) := by
  refine ⟨?_, ?_, ?_⟩
  · intro hdup
    rcases CompareFiles_dup_spec hdup with h | ⟨cm', ct', hcm', hct', hdr⟩
    · cases h
    · have h1 : cm' = cm := Option.some.inj (hcm'.symm.trans hm)
      have h2 : ct' = ct := Option.some.inj (hct'.symm.trans hp)
      rw [h1, h2] at hdr
      rw [hdr] at hshort
      exact absurd hshort (Nat.lt_irrefl _)
  · intro k hksm
    rcases CompareFiles_kgs_spec hksm with
      h | ⟨cm', hcm', ct', hct', hle, hrel, hb1, hb2, r, L, hr1, hr2, hr3, hr4⟩
    · exact absurd h (by simp [kgsMem, bucketOf])
    · have h1 : cm' = cm := Option.some.inj (hcm'.symm.trans hm)
      have h2 : ct' = ct := Option.some.inj (hct'.symm.trans hp)
      rw [h1] at hb2 hr4
      rw [h2] at hb1 hr3
      have hB : BUFFER_SIZE = 4096 := rfl
      rw [hB] at hr1 hr2 hr3 hmatch
      rcases hr4 with hr4 | hr4
      · rw [hB] at hr4
        subst hr4
        by_cases hrq : r + 1 ≤ (ct.drop off).length / 4096
        · have hjlt : k.1 - off < (ct.drop off).length / 4096 * 4096 := by omega
          have hoffj : off + (k.1 - off) = k.1 := by omega
          have hcteq : ct[k.1]? = cm[k.1]? := by
            calc ct[k.1]? = (ct.drop off)[k.1 - off]? := by
                  rw [List.getElem?_drop, hoffj]
              _ = ((ct.drop off).take ((ct.drop off).length / 4096 * 4096))[k.1 - off]? :=
                  (List.getElem?_take_of_lt hjlt).symm
              _ = ((cm.drop off).take ((ct.drop off).length / 4096 * 4096))[k.1 - off]? := by
                  rw [hmatch]
              _ = (cm.drop off)[k.1 - off]? := List.getElem?_take_of_lt hjlt
              _ = cm[k.1]? := by rw [List.getElem?_drop, hoffj]
          rw [hb1] at hcteq
          exact hb2 hcteq.symm
        · omega
      · rw [hB] at hr4
        omega
  · intro e he
    rw [CompareFiles_logs_some l off [] [] hm] at he
    obtain ⟨q, hq, hqnone, rfl⟩ := sessionLogs_mem.mp he
    constructor
    · intro hEq
      have hqp : q = p := by injection hEq
      rw [hqp] at hqnone
      exact Option.noConfusion (hqnone.symm.trans hp)
    · intro hEq
      cases hEq

theorem C3_witness :
    ("s" ∉ (CompareFilesBufferedAdvanced fsC3 "m" ["s"] 0 [] []).2.1 ∧
      ¬ kgsMem (CompareFilesBufferedAdvanced fsC3 "m" ["s"] 0 [] []).1 (0, 0) "s") ∧
    ("t" ∉ (CompareFilesBufferedAdvanced fsC3b "m" ["t"] 0 [] []).2.1 ∧
      ¬ kgsMem (CompareFilesBufferedAdvanced fsC3b "m" ["t"] 0 [] []).1 (1, 9) "t") :=
  ⟨⟨(C3_short_read_pruned_silently fsC3 "m" "s" ["s"] 0 [1, 2, 3, 4] [1, 2]
        rfl rfl (by decide) (by decide) (by decide)).1,
      (C3_short_read_pruned_silently fsC3 "m" "s" ["s"] 0 [1, 2, 3, 4] [1, 2]
        rfl rfl (by decide) (by decide) (by decide)).2.1 (0, 0)⟩,
    ⟨(C3_short_read_pruned_silently fsC3b "m" "t" ["t"] 0 [1, 2, 3, 4] [1, 9]
        rfl rfl (by decide) (by decide) (by decide)).1,
      (C3_short_read_pruned_silently fsC3b "m" "t" ["t"] 0 [1, 2, 3, 4] [1, 9]
        rfl rfl (by decide) (by decide) (by decide)).2.1 (1, 9)⟩⟩

/-- C4: the recursion of `GroupFilesByContentUsingMap` terminates: every
PartitionKey bucket of a call is strictly smaller than the call's candidate
set, the pivot is never a member of any bucket, a bucket's resume offset
never decreases, and the function satisfies the intended recursion equation
(one group for the pivot when it has survivors, recursion on each bucket
with at least two members). -/
theorem C4_partitioner_terminates (fs : FS) (files : List String) (off : Nat)
    (h2 : 2 ≤ files.length) :
    (∀ k b, (k, b) ∈ (pivotSession fs files off).1 →
      b.length < files.length ∧ files.headD "" ∉ b ∧ (b ≠ [] → off ≤ k.1)) ∧
    GroupFilesByContentUsingMap fs files off =
      (if 1 < (pivotSession fs files off).2.1.length
        then [(pivotSession fs files off).2.1] else []) ++
        ((pivotSession fs files off).1.map fun e =>
          if 1 < e.2.length then GroupFilesByContentUsingMap fs e.2 e.1.1 else []).flatten := by
  refine ⟨?_, GroupFiles_recurrence fs files off h2⟩
  intro k b hkb
  refine ⟨pivotSession_bucket_len h2 hkb, ?_, ?_⟩
  · intro hpb
    obtain ⟨cm, hcm, ct, hct, hle, hrel, hb1, hb2, _⟩ := pivotSession_kgs_spec
      (pivotSession_bucket_mem hkb hpb)
    have hcteq : ct = cm := Option.some.inj (hct.symm.trans hcm)
    rw [hcteq] at hb1
    exact hb2 hb1
  · intro hbne
    obtain ⟨q, hq⟩ := List.exists_mem_of_ne_nil b hbne
    obtain ⟨cm, hcm, ct, hct, hle, _⟩ := pivotSession_kgs_spec
      (pivotSession_bucket_mem hkb hq)
    exact hle

theorem C4_witness :
    ((["b", "c"] : List String).length < (["a", "b", "c"] : List String).length ∧
      "a" ∉ (["b", "c"] : List String) ∧
      ((["b", "c"] : List String) ≠ [] → (0 : Nat) ≤ 1)) ∧
    GroupFilesByContentUsingMap fsC4 ["a", "b", "c"] 0 = [["b", "c"]] :=
  ⟨(C4_partitioner_terminates fsC4 ["a", "b", "c"] 0 (by decide)).1
      (1, 3) ["b", "c"] (by decide),
    by decide⟩

/-- C5: a failing master-identity query aborts the whole group — the result is
`false`, the state is untouched, and the trace holds only the master's
identity query (no delete, no link, no member query) — and the `wmain` loop
then exits with code 1; `DeduplicateGroup` returns `false` *only* in that
case, so per-member failures (identity, delete, or link) never affect the
exit code, and a successful group lets the loop continue. -/
theorem C5_master_identity_failure_aborts (st : DedupState) (m d : String)
    (rest : List String) (gs : List (List String)) :
    ((DeduplicateGroup st (m :: d :: rest)).1 = false ↔ st.getId m = none) ∧
    (st.getId m = none →
      DeduplicateGroup st (m :: d :: rest) = (false, st, [Action.queryId m]) ∧
      (wmainDedupLoop st ((m :: d :: rest) :: gs)).1 = 1) ∧
    (∀ st' : DedupState, ∀ g : List String,
      (g.length < 2 ∨ ∃ mid, st'.getId (g.headD "") = some mid) →
      (DeduplicateGroup st' g).1 = true) ∧
    (∀ st' : DedupState, ∀ g gs',
      (DeduplicateGroup st' g).1 = true →
      wmainDedupLoop st' (g :: gs') =
        wmainDedupLoop (DeduplicateGroup st' g).2.1 gs') := by
  refine ⟨?_, ?_, ?_, ?_⟩
  · cases hm : st.getId m with
    | none =>
      rw [DeduplicateGroup_master_fail st m d rest hm]
      simp
    | some masterId =>
      rw [DeduplicateGroup_master_ok st m d rest masterId hm]
      simp
  · intro hm
    refine ⟨DeduplicateGroup_master_fail st m d rest hm, ?_⟩
    rw [wmainDedupLoop_cons, DeduplicateGroup_master_fail st m d rest hm]
    rfl
  · intro st' g hg
    match g with
    | [] => rfl
    | [x] => rfl
    | x :: y :: r =>
      rcases hg with hlen | ⟨mid, hmid⟩
      · simp at hlen; omega
      · rw [DeduplicateGroup_master_ok st' x y r mid hmid]
  · intro st' g gs' hok
    rw [wmainDedupLoop_cons, if_pos hok]

theorem C5_witness :
    DeduplicateGroup stNone ["a", "b"] = (false, stNone, [Action.queryId "a"]) ∧
      (wmainDedupLoop stNone [["a", "b"]]).1 = 1 :=
  (C5_master_identity_failure_aborts stNone "a" "b" [] []).2.1 rfl

/-- C6: the master (the group's first element) is never deleted, never
relinked, and never modified: its identity is unchanged by the call, every
delete and every hard-link in the trace targets a member at position 1 or
later whose path is not the master's, and every hard-link points at the
master. -/
theorem C6_master_never_touched (st : DedupState) (g : List String) :
    (DeduplicateGroup st g).2.1.getId (g.headD "") = st.getId (g.headD "") ∧
    (∀ p, Action.deleteFile p ∈ (DeduplicateGroup st g).2.2 →
      p ∈ g.tail ∧ p ≠ g.headD "") ∧
    (∀ p q, Action.createLink p q ∈ (DeduplicateGroup st g).2.2 →
      p ∈ g.tail ∧ p ≠ g.headD "" ∧ q = g.headD "") := by
  match g with
  | [] =>
    refine ⟨rfl, ?_, ?_⟩
    · intro p hp
      cases hp
    · intro p q hp
      cases hp
  | [m] =>
    refine ⟨rfl, ?_, ?_⟩
    · intro p hp
      cases hp
    · intro p q hp
      cases hp
  | m :: d :: rest =>
    cases hm : st.getId m with
    | none =>
      rw [DeduplicateGroup_master_fail st m d rest hm]
      refine ⟨rfl, ?_, ?_⟩
      · intro p hp
        rcases List.mem_cons.mp hp with h | h
        · cases h
        · cases h
      · intro p q hp
        rcases List.mem_cons.mp hp with h | h
        · cases h
        · cases h
    | some masterId =>
      rw [DeduplicateGroup_master_ok st m d rest masterId hm]
      obtain ⟨h1, h2, h3⟩ := dedupMembers_spec m masterId (d :: rest) st hm
      refine ⟨h1, ?_, ?_⟩
      · intro p hp
        rcases List.mem_cons.mp hp with h | h
        · cases h
        · exact h2 p h
      · intro p q hp
        rcases List.mem_cons.mp hp with h | h
        · cases h
        · exact h3 p q h

/-- C7: when every member's identity already equals the master's, the
deduplicator is a pure no-op: it returns the state unchanged with a
query-only trace — no delete and no hard-link is attempted. -/
theorem C7_already_linked_noop (st : DedupState) (m d : String)
    (rest : List String) (mid : Nat) (hm : st.getId m = some mid)
    (hmem : ∀ x ∈ d :: rest, st.getId x = some mid) :
    DeduplicateGroup st (m :: d :: rest) =
      (true, st, Action.queryId m :: (d :: rest).map Action.queryId) ∧
    (∀ p, Action.deleteFile p ∉ (DeduplicateGroup st (m :: d :: rest)).2.2) ∧
    (∀ p q, Action.createLink p q ∉ (DeduplicateGroup st (m :: d :: rest)).2.2) := by
  have heq : DeduplicateGroup st (m :: d :: rest) =
      (true, st, Action.queryId m :: (d :: rest).map Action.queryId) := by
    rw [DeduplicateGroup_master_ok st m d rest mid hm]
    rw [dedupMembers_all_skip m mid (d :: rest) st hmem]
  refine ⟨heq, ?_, ?_⟩
  · intro p hp
    rw [heq] at hp
    rcases List.mem_cons.mp hp with h | h
    · cases h
    · obtain ⟨x, _, hxx⟩ := List.mem_map.mp h
      cases hxx
  · intro p q hp
    rw [heq] at hp
    rcases List.mem_cons.mp hp with h | h
    · cases h
    · obtain ⟨x, _, hxx⟩ := List.mem_map.mp h
      cases hxx

theorem C7_witness :
    DeduplicateGroup stLinked ["a", "b"] =
      (true, stLinked, [Action.queryId "a", Action.queryId "b"]) :=
  (C7_already_linked_noop stLinked "a" "b" [] 5 rfl (by decide)).1

/-- C8: partitioning never emits a singleton — every emitted group has at
least two members — and a bucket with exactly one member is dropped: with
distinct input paths, its path appears in no emitted group of the call. -/
theorem C8_no_singleton_groups (fs : FS) (files : List String) (off : Nat) :
    (∀ G ∈ GroupFilesByContentUsingMap fs files off, 2 ≤ G.length) ∧
    (files.Nodup → 2 ≤ files.length →
      ∀ k p, (k, [p]) ∈ (pivotSession fs files off).1 →
        ∀ G ∈ GroupFilesByContentUsingMap fs files off, p ∉ G) := by
  constructor
  · intro G hG
    exact groupFilesAux_min_len fs files.length files off G hG
  · intro hnd h2 k p hk
    exact singleton_bucket_excluded hnd h2 hk

theorem C8_witness :
    (2 ≤ (["b", "c"] : List String).length) ∧
    (∀ G ∈ GroupFilesByContentUsingMap fsC8 ["a", "b", "c"] 0, "b" ∉ G) :=
  ⟨(C8_no_singleton_groups fsC4 ["a", "b", "c"] 0).1 ["b", "c"] (by decide),
    (C8_no_singleton_groups fsC8 ["a", "b", "c"] 0).2 (by decide) (by decide)
      (1, 3) "b" (by decide)⟩

/-- C9: an unopenable candidate is logged and excluded from the comparison
session: the key groups and duplicate group are the same as if the candidate
were removed from the batch, an open-failure event for it is logged, and it
appears in no duplicate group and no bucket; an unopenable pivot aborts only
that partitioning call (it yields no group at all), and an unopenable file is
a member of no emitted group anywhere. -/
theorem C9_open_failure_excluded (fs : FS) (m p : String) (l1 l2 : List String)
    (off : Nat) (cm : List Nat) (hm : fs m = some cm) (hp : fs p = none) :
    ((CompareFilesBufferedAdvanced fs m (l1 ++ p :: l2) off [] []).1 =
        (CompareFilesBufferedAdvanced fs m (l1 ++ l2) off [] []).1 ∧
      (CompareFilesBufferedAdvanced fs m (l1 ++ p :: l2) off [] []).2.1 =
        (CompareFilesBufferedAdvanced fs m (l1 ++ l2) off [] []).2.1) ∧
    LogEvent.openRightFail p ∈
      (CompareFilesBufferedAdvanced fs m (l1 ++ p :: l2) off [] []).2.2 ∧
    (p ∉ (CompareFilesBufferedAdvanced fs m (l1 ++ p :: l2) off [] []).2.1 ∧
      ∀ k, ¬ kgsMem (CompareFilesBufferedAdvanced fs m (l1 ++ p :: l2) off [] []).1 k p) ∧
    (∀ files : List String, fs (files.headD "") = none →
      GroupFilesByContentUsingMap fs files off = []) ∧
    (∀ (files : List String) (off' : Nat),
      ∀ G ∈ GroupFilesByContentUsingMap fs files off', p ∉ G) := by
  refine ⟨CompareFiles_skip_unopenable hp, ?_, ⟨?_, ?_⟩, ?_, ?_⟩
  · rw [CompareFiles_logs_some (l1 ++ p :: l2) off [] [] hm]
    exact sessionLogs_mem.mpr ⟨p, by simp, hp, rfl⟩
  · intro hdup
    rcases CompareFiles_dup_spec hdup with h | ⟨cm', ct', _, hct', _⟩
    · cases h
    · exact Option.noConfusion (hp.symm.trans hct')
  · intro k hksm
    rcases CompareFiles_kgs_spec hksm with h | ⟨cm', _, ct', hct', _⟩
    · exact absurd h (by simp [kgsMem, bucketOf])
    · exact Option.noConfusion (hp.symm.trans hct')
  · intro files hmf
    by_cases h2 : files.length < 2
    · exact GroupFiles_small fs files off h2
    · rw [GroupFiles_recurrence fs files off (by omega)]
      rw [(pivotSession_master_none hmf).1, (pivotSession_master_none hmf).2]
      simp
  · intro files off' G hG hpg
    have hG' : G ∈ groupFilesAux fs files.length files off' := hG
    obtain ⟨ct, hct⟩ := groupFilesAux_opened fs files.length files off' G hG' p hpg
    exact Option.noConfusion (hp.symm.trans hct)

theorem C9_witness :
    (CompareFilesBufferedAdvanced fsC9 "m" ["x", "r"] 0 [] []).2.1 =
      (CompareFilesBufferedAdvanced fsC9 "m" ["r"] 0 [] []).2.1 ∧
    LogEvent.openRightFail "x" ∈
      (CompareFilesBufferedAdvanced fsC9 "m" ["x", "r"] 0 [] []).2.2 :=
  ⟨(C9_open_failure_excluded fsC9 "m" "x" [] ["r"] 0 [1, 2] rfl rfl).1.2,
    (C9_open_failure_excluded fsC9 "m" "x" [] ["r"] 0 [1, 2] rfl rfl).2.1⟩

/-- C10: within one call tree, each input path reaches at most one
destination, so the emitted duplicate groups are pairwise disjoint: no path
appears in more than one emitted group (distinct input paths assumed). -/
theorem C10_groups_pairwise_disjoint (fs : FS) (files : List String) (off : Nat)
    (hnd : files.Nodup) :
    List.Pairwise (fun G H => ∀ x ∈ G, x ∉ H)
      (GroupFilesByContentUsingMap fs files off) :=
  groupFilesAux_disjoint fs files.length files off hnd

theorem C10_witness :
    GroupFilesByContentUsingMap fsC10 ["a", "b", "c", "d"] 0 =
      [["a", "b"], ["c", "d"]] ∧
    List.Pairwise (fun G H => ∀ x ∈ G, x ∉ H)
      (GroupFilesByContentUsingMap fsC10 ["a", "b", "c", "d"] 0) :=
  ⟨by decide, C10_groups_pairwise_disjoint fsC10 ["a", "b", "c", "d"] 0 (by decide)⟩

end HandleDuplicateFiles
